import Mathlib

/-
Verification development for the JSON parser in src/parser.cpp.

Embedding conventions:
- The raw input text is a `List Char`; C++ `std::string` payloads are `List Char`.
- C++ exceptions (`throw invalid_argument ...`) are modelled with `Except Err`,
  one `Err` constructor per distinct throw site / message.
- `std::stoi` overflow (`std::out_of_range`) is modelled by `Err.IntOutOfRange`
  with the 32-bit `int` bounds of the reference platform.
- C++ `double` is modelled as an exact rational (`Rat`); IEEE-754 rounding of
  `stod` and of stream output is not modelled (every literal appearing in a
  theorem below is exactly representable, where this makes no difference).
- The scanner's character-indexed loops are expressed as structural recursion
  over the remaining character list; this is the same left-to-right traversal
  the C++ performs with `current`, and makes every definition computable by
  the kernel.
- The parser's mutual recursion (`parse_from_token` / `parse_object` /
  `parse_array`) is expressed with a fuel parameter so that the definition is
  structural; `Err.FuelOut` is the (unreachable for sufficient fuel)
  out-of-fuel marker.  `Parser.parse` supplies fuel `3 * tokens.length + 10`,
  which dominates the call depth since every third nested call consumes at
  least one token.
- `tokens[current]` on an out-of-range index is undefined behaviour in C++
  (`std::vector::operator[]`); it is modelled as the distinguished error
  `Err.OutOfBounds`, so "no out-of-bounds access" is "never returns
  `Err.OutOfBounds`".
-/

/-- Model of C `isdigit` restricted to ASCII, as used by the scanner. -/
def isdigit (c : Char) : Bool := 48 ≤ c.toNat && c.toNat ≤ 57

/-- Model of C `isalpha` restricted to ASCII, as used by the scanner. -/
def isalpha (c : Char) : Bool :=
  (65 ≤ c.toNat && c.toNat ≤ 90) || (97 ≤ c.toNat && c.toNat ≤ 122)

/-- TokenType from src/parser.cpp lines 21-34. -/
inductive TokenType where
  | STRING
  | NUMBER
  | BOOLEAN
  | NULL_VALUE
  | COMMA
  | COLON
  | LEFT_CURLY
  | RIGHT_CURLY
  | LEFT_SQUARE
  | RIGHT_SQUARE
  | EOF_TOKEN
deriving DecidableEq

/-- Payload variant of a token: C++ `variant<monostate, string, int, double, bool>`. -/
inductive TokenValue where
  | mono
  | str (s : List Char)
  | int (i : Int)
  | float (q : Rat)
  | bool (b : Bool)
deriving DecidableEq

/-- Token from src/parser.cpp lines 36-42. -/
structure Token where
  token_type : TokenType
  value : TokenValue
deriving DecidableEq

/-- Every distinct error (C++ `throw invalid_argument`) of scanner and parser,
plus the two embedding artefacts `FuelOut` and `OutOfBounds` described above. -/
inductive Err where
  | MinusWithoutDigit
  | UnexpectedTokenScan
  | UnterminatedString
  | ExpectedDigitAfterDot
  | IntOutOfRange
  | UnexpectedTokenParse
  | UnterminatedObject
  | ExpectedKey
  | ExpectedColon
  | MissingComma
  | UnterminatedArray
  | BadVariantAccess
  | OutOfBounds
  | FuelOut
deriving DecidableEq

/-- Numeric value of a big-endian list of ASCII digit characters
(the value `std::stoi` / `std::stod` computes for the integer part). -/
def digitsToNat (ds : List Char) : Nat :=
  ds.foldl (fun a c => 10 * a + (c.toNat - 48)) 0

/-- Value of the number literal with optional sign, integer digits `i` and
fraction digits `f`, as `std::stod` computes it (modelled exactly on `Rat`). -/
def stodVal (neg : Bool) (i f : List Char) : Rat :=
  let v : Rat := (digitsToNat i : Rat) + (digitsToNat f : Rat) / (10 : Rat) ^ f.length
  if neg then -v else v

/-- Scanner string-literal loop (src/parser.cpp lines 138-153): consume
characters until the next `"`; `none` models falling off the end of input
(the `isLast` check that throws `Unterminated string`).  Returns the payload
(the characters strictly between the quotes) and the rest of the input after
the closing quote. -/
def stringChars : List Char → Option (List Char × List Char)
  | [] => none
  | c :: rest =>
    if c = '\"' then some ([], rest)
    else
      match stringChars rest with
      | none => none
      | some (p, r) => some (c :: p, r)

/-- Maximal run of digits at the front of the input
(the `while (isdigit(getCurrValue())) current++;` loops). -/
def digitRun : List Char → List Char × List Char
  | [] => ([], [])
  | c :: rest =>
    if isdigit c then (c :: (digitRun rest).1, (digitRun rest).2)
    else ([], c :: rest)

/-- Maximal run of alphabetic characters at the front of the input
(the loop of `addKeyword`). -/
def alphaRun : List Char → List Char × List Char
  | [] => ([], [])
  | c :: rest =>
    if isalpha c then (c :: (alphaRun rest).1, (alphaRun rest).2)
    else ([], c :: rest)

/-- Scanner::getCurrValue (src/parser.cpp lines 210-217) relative to the
remaining input: the current character, or `' '` past the end of input. -/
def getCurrValue : List Char → Char
  | [] => ' '
  | c :: _ => c

/-- Scanner::getNextValue (src/parser.cpp lines 219-227): the character after
the current one, or `' '` past the end of input. -/
def getNextValue : List Char → Char
  | [] => ' '
  | [_] => ' '
  | _ :: c :: _ => c

/-- Scanner::addNumber (src/parser.cpp lines 155-182).  `neg` records whether
the literal began with `-` (the `case '-'` of `scanToken`), `d` is the first
digit (already consumed by `advanceCurrent`), `rest` is the remaining input.
The maximal digit run is consumed; if `getCurrValue` is then `.`,
`getNextValue` must be a digit (else `Expected digit after .` is thrown), the
dot is consumed and a second maximal digit run forms the fraction, giving a
float token via `stod`; otherwise the integer branch calls `stoi`, whose
out-of-int-range failure is modelled by `IntOutOfRange`. -/
def addNumber (neg : Bool) (d : Char) (rest : List Char) :
    Except Err (Token × List Char) :=
  let rest1 := (digitRun rest).2
  let intDigits := d :: (digitRun rest).1
  if getCurrValue rest1 = '.' then
    if isdigit (getNextValue rest1) then
      let rest2 := rest1.drop 1
      .ok (⟨.NUMBER, .float (stodVal neg intDigits (digitRun rest2).1)⟩,
        (digitRun rest2).2)
    else .error .ExpectedDigitAfterDot
  else
    let n := digitsToNat intDigits
    if neg then
      if n ≤ 2147483648 then .ok (⟨.NUMBER, .int (-(n : Int))⟩, rest1)
      else .error .IntOutOfRange
    else
      if n ≤ 2147483647 then .ok (⟨.NUMBER, .int (n : Int)⟩, rest1)
      else .error .IntOutOfRange

/-- Scanner::addString (src/parser.cpp lines 138-153), starting just after the
opening quote. -/
def addString (rest : List Char) : Except Err (Token × List Char) :=
  match stringChars rest with
  | none => .error .UnterminatedString
  | some (p, r) => .ok (⟨.STRING, .str p⟩, r)

/-- Scanner::addKeyword (src/parser.cpp lines 184-208); `c` is the first
alphabetic character, already consumed. -/
def addKeyword (c : Char) (rest : List Char) : Except Err (Token × List Char) :=
  match alphaRun rest with
  | (cs, rest1) =>
    let keyword := c :: cs
    if keyword = "true".data then .ok (⟨.BOOLEAN, .bool true⟩, rest1)
    else if keyword = "false".data then .ok (⟨.BOOLEAN, .bool false⟩, rest1)
    else if keyword = "null".data then .ok (⟨.NULL_VALUE, .mono⟩, rest1)
    else .error .UnexpectedTokenScan

/-- Scanner::scanToken (src/parser.cpp lines 74-130).  `c` is the character
just consumed by `advanceCurrent`, `rest` the remaining input, `line` the line
counter.  Returns the (zero or one) tokens pushed, the remaining input and the
updated line counter.  In the `-` case, `getCurrValue` past the end of input
returns `' '` in the C++ (src lines 210-217), which is not a digit, so the
empty-rest case throws exactly as the C++ does. -/
def scanToken (c : Char) (rest : List Char) (line : Nat) :
    Except Err (List Token × List Char × Nat) :=
  if c = '\x7b' then .ok ([⟨.LEFT_CURLY, .str [c]⟩], rest, line)
  else if c = '\x7d' then .ok ([⟨.RIGHT_CURLY, .str [c]⟩], rest, line)
  else if c = '[' then .ok ([⟨.LEFT_SQUARE, .str [c]⟩], rest, line)
  else if c = ']' then .ok ([⟨.RIGHT_SQUARE, .str [c]⟩], rest, line)
  else if c = ',' then .ok ([⟨.COMMA, .str [c]⟩], rest, line)
  else if c = ':' then .ok ([⟨.COLON, .str [c]⟩], rest, line)
  else if c = '\n' then .ok ([], rest, line + 1)
  else if c = ' ' then .ok ([], rest, line)
  else if c = '\"' then
    match addString rest with
    | .error e => .error e
    | .ok (t, r) => .ok ([t], r, line)
  else if c = '-' then
    match rest with
    | [] => .error .MinusWithoutDigit
    | d :: rest' =>
      if isdigit d then
        match addNumber true d rest' with
        | .error e => .error e
        | .ok (t, r) => .ok ([t], r, line)
      else .error .MinusWithoutDigit
  else if isdigit c then
    match addNumber false c rest with
    | .error e => .error e
    | .ok (t, r) => .ok ([t], r, line)
  else if isalpha c then
    match addKeyword c rest with
    | .error e => .error e
    | .ok (t, r) => .ok ([t], r, line)
  else .error .UnexpectedTokenScan

/-- Scanner::scan main loop (src/parser.cpp lines 56-63): while input remains,
scan one token.  The fuel argument makes the recursion structural; `scan`
passes `length + 1`, which theorem `scan_total_and_progress` below proves is
always sufficient (each `scanToken` consumes at least one character). -/
def scanLoop : Nat → List Char → Nat → Except Err (List Token)
  | 0, _, _ => .error .FuelOut
  | _ + 1, [], _ => .ok []
  | fuel + 1, c :: rest, line =>
    match scanToken c rest line with
    | .error e => .error e
    | .ok (ts, rest', line') =>
      match scanLoop fuel rest' line' with
      | .error e => .error e
      | .ok ts2 => .ok (ts ++ ts2)

/-- Scanner::scan (src/parser.cpp lines 56-66): run the loop, then push the
final EOF token. -/
def scan (s : List Char) : Except Err (List Token) :=
  match scanLoop (s.length + 1) s 1 with
  | .error e => .error e
  | .ok ts => .ok (ts ++ [⟨.EOF_TOKEN, .mono⟩])

/-- JsonValue (src/parser.cpp lines 9-19):
`variant<JsonObject, JsonArray, string, int, double, bool, nullptr_t>`.
`JsonObject` derives from `std::map<string, JsonValue>` and is modelled as a
key-sorted association list (the iteration order of `std::map`); `JsonArray`
derives from `std::vector<JsonValue>` and is a plain list. -/
inductive JsonValue where
  | obj (entries : List (List Char × JsonValue))
  | arr (elems : List JsonValue)
  | str (s : List Char)
  | int (i : Int)
  | float (q : Rat)
  | bool (b : Bool)
  | null

/-- Strict lexicographic order on `List Char` by code point: the order
`std::map<string, _>` keeps its keys in (`operator<` on `std::string`). -/
def lexLt : List Char → List Char → Bool
  | [], [] => false
  | [], _ :: _ => true
  | _ :: _, [] => false
  | a :: as, b :: bs =>
    if a.toNat < b.toNat then true
    else if b.toNat < a.toNat then false
    else lexLt as bs

/-- Effect of `json_object[key] = value` on the sorted entry list of a
`std::map`: insert at the sorted position, or overwrite in place. -/
def mapInsert (k : List Char) (v : JsonValue) :
    List (List Char × JsonValue) → List (List Char × JsonValue)
  | [] => [(k, v)]
  | (k', v') :: rest =>
    if lexLt k k' then (k, v) :: (k', v') :: rest
    else if k = k' then (k, v) :: rest
    else (k', v') :: mapInsert k v rest

/-- Parser cursor state (src/parser.cpp lines 232-234): the token vector and
the `current` index. -/
structure PState where
  tokens : List Token
  current : Nat
deriving DecidableEq

/-- Parser::advanceCurrent (src/parser.cpp lines 323-328): read
`tokens[current]`, then increment.  An out-of-range read is UB in C++ and is
modelled by the distinguished error `OutOfBounds`. -/
def pAdvance (s : PState) : Except Err (Token × PState) :=
  match s.tokens.get? s.current with
  | none => .error .OutOfBounds
  | some t => .ok (t, ⟨s.tokens, s.current + 1⟩)

/-- Parser::getCurrValue (src/parser.cpp lines 354-357). -/
def pGetCurr (s : PState) : Except Err Token :=
  match s.tokens.get? s.current with
  | none => .error .OutOfBounds
  | some t => .ok t

/-- Parser::consume (src/parser.cpp lines 330-338); `e` is the error thrown on
mismatch (the C++ message argument). -/
def consume (tt : TokenType) (e : Err) (s : PState) : Except Err PState :=
  match pGetCurr s with
  | .error e' => .error e'
  | .ok t =>
    if t.token_type = tt then .ok ⟨s.tokens, s.current + 1⟩
    else .error e

/-- Parser::consume_until_comma (src/parser.cpp lines 340-352): a comma is
consumed; the `exception` token type (`}` or `]`) is left in place; anything
else throws `Missing comma unless followed by`. -/
def consume_until_comma (exception : TokenType) (s : PState) :
    Except Err PState :=
  match pGetCurr s with
  | .error e => .error e
  | .ok t =>
    if t.token_type = .COMMA then .ok ⟨s.tokens, s.current + 1⟩
    else
      match pGetCurr s with
      | .error e => .error e
      | .ok t2 =>
        if t2.token_type = exception then .ok s
        else .error .MissingComma

/-- Call descriptor for the mutually recursive parser functions; the fuel-
indexed interpreter `parseF` below gives them one structural definition.
`objLoop key acc` is one iteration of the `while` of `parse_object` with
`key_token = key` and the entries accumulated so far; `arrLoop` likewise for
`parse_array`. -/
inductive PCall where
  | fromToken (t : Token)
  | objCall
  | objLoop (key : Token) (acc : List (List Char × JsonValue))
  | arrCall
  | arrLoop (t : Token) (acc : List JsonValue)

/-- Fuel-indexed interpreter of the mutually recursive Parser functions
`parse_from_token` (src lines 245-271), `parse_object` (273-300) and
`parse_array` (302-321).  Each C++ function body is translated clause for
clause; `get<T>` on a wrong variant alternative throws in C++
(`bad_variant_access`), modelled by `BadVariantAccess`. -/
def parseF : Nat → PCall → PState → Except Err (JsonValue × PState)
  | 0, _, _ => .error .FuelOut
  | fuel + 1, .fromToken t, s =>
    match t.token_type with
    | .STRING =>
      match t.value with
      | .str str => .ok (.str str, s)
      | _ => .error .BadVariantAccess
    | .NUMBER =>
      match t.value with
      | .int i => .ok (.int i, s)
      | .float q => .ok (.float q, s)
      | _ => .error .BadVariantAccess
    | .BOOLEAN =>
      match t.value with
      | .bool b => .ok (.bool b, s)
      | _ => .error .BadVariantAccess
    | .NULL_VALUE => .ok (.null, s)
    | .LEFT_CURLY => parseF fuel .objCall s
    | .LEFT_SQUARE => parseF fuel .arrCall s
    | _ => .error .UnexpectedTokenParse
  | fuel + 1, .objCall, s =>
    match pAdvance s with
    | .error e => .error e
    | .ok (key, s1) => parseF fuel (.objLoop key []) s1
  | fuel + 1, .objLoop key acc, s =>
    if key.token_type = .RIGHT_CURLY then .ok (.obj acc, s)
    else if key.token_type = .EOF_TOKEN then .error .UnterminatedObject
    else if key.token_type = .STRING then
      match consume .COLON .ExpectedColon s with
      | .error e => .error e
      | .ok s2 =>
        match pAdvance s2 with
        | .error e => .error e
        | .ok (vt, s3) =>
          match parseF fuel (.fromToken vt) s3 with
          | .error e => .error e
          | .ok (v, s4) =>
            match key.value with
            | .str k =>
              match consume_until_comma .RIGHT_CURLY s4 with
              | .error e => .error e
              | .ok s5 =>
                match pAdvance s5 with
                | .error e => .error e
                | .ok (key', s6) => parseF fuel (.objLoop key' (mapInsert k v acc)) s6
            | _ => .error .BadVariantAccess
    else .error .ExpectedKey
  | fuel + 1, .arrCall, s =>
    match pAdvance s with
    | .error e => .error e
    | .ok (t, s1) => parseF fuel (.arrLoop t []) s1
  | fuel + 1, .arrLoop t acc, s =>
    if t.token_type = .RIGHT_SQUARE then .ok (.arr acc, s)
    else if t.token_type = .EOF_TOKEN then .error .UnterminatedArray
    else
      match parseF fuel (.fromToken t) s with
      | .error e => .error e
      | .ok (v, s1) =>
        match consume_until_comma .RIGHT_SQUARE s1 with
        | .error e => .error e
        | .ok s2 =>
          match pAdvance s2 with
          | .error e => .error e
          | .ok (t', s3) => parseF fuel (.arrLoop t' (acc ++ [v])) s3

/-- Parser::parse_from_token under sufficient fuel. -/
def parse_from_token (fuel : Nat) (t : Token) (s : PState) :
    Except Err (JsonValue × PState) :=
  parseF fuel (.fromToken t) s

/-- Parser::parse_object under sufficient fuel. -/
def parse_object (fuel : Nat) (s : PState) : Except Err (JsonValue × PState) :=
  parseF fuel .objCall s

/-- Parser::parse_array under sufficient fuel. -/
def parse_array (fuel : Nat) (s : PState) : Except Err (JsonValue × PState) :=
  parseF fuel .arrCall s

/-- Parser::parse (src/parser.cpp lines 239-243): advance once and dispatch on
the first token.  No check that the remaining tokens were consumed follows. -/
def Parser.parse (tokens : List Token) : Except Err JsonValue :=
  match pAdvance ⟨tokens, 0⟩ with
  | .error e => .error e
  | .ok (t, s1) =>
    match parseF (3 * tokens.length + 10) (.fromToken t) s1 with
    | .error e => .error e
    | .ok (v, _) => .ok v

/-- Free function parse (src/parser.cpp lines 360-366): scan, then parse. -/
def parse (input : List Char) : Except Err JsonValue :=
  match scan input with
  | .error e => .error e
  | .ok tokens => Parser.parse tokens

/-- Decimal digit character for `d < 10`. -/
def digitChar (d : Nat) : Char := Char.ofNat (48 + d)

/-- Big-endian decimal digits of `n`, with fuel making the recursion on
`n / 10` structural; fuel `n + 1` always suffices. -/
def natToCharsFuel : Nat → Nat → List Char
  | 0, _ => []
  | fuel + 1, n =>
    if n < 10 then [digitChar n]
    else natToCharsFuel fuel (n / 10) ++ [digitChar (n % 10)]

/-- Decimal representation of a natural number, as `operator<<` prints it. -/
def natToChars (n : Nat) : List Char := natToCharsFuel (n + 1) n

/-- Decimal representation of an `int`, as `cout << get<int>(value)` prints it
(src/parser.cpp line 413). -/
def intToChars (i : Int) : List Char :=
  if i < 0 then '-' :: natToChars (-i).toNat else natToChars i.toNat

/-- Number of decimal digits of `n`. -/
def digitCount (n : Nat) : Nat := (natToChars n).length

/-- Drop trailing `'0'` characters. -/
def stripZeros (l : List Char) : List Char :=
  (l.reverse.dropWhile (fun c => c = '0')).reverse

/-- Round `p / q` to the nearest integer, ties to even (the rounding used when
a decimal conversion shortens a value to 6 significant digits). -/
def roundHalfEven (p q : Nat) : Nat :=
  let i := p / q
  let r := p % q
  if 2 * r < q then i
  else if q < 2 * r then i + 1
  else if i % 2 = 0 then i else i + 1

/-- Does the positive rational `n / d` satisfy `10 ^ e ≤ n / d`? -/
def ratGePow10 (n d : Nat) (e : Int) : Bool :=
  if 0 ≤ e then d * 10 ^ e.toNat ≤ n else d ≤ n * 10 ^ (-e).toNat

/-- Numerator and denominator of `(n / d) * 10 ^ (5 - e)`. -/
def scaledFrac (n d : Nat) (e : Int) : Nat × Nat :=
  let k : Int := 5 - e
  if 0 ≤ k then (n * 10 ^ k.toNat, d) else (n, d * 10 ^ (-k).toNat)

/-- Two-or-more-digit exponent field of scientific notation (`e+06`). -/
def expChars (a : Nat) : List Char :=
  if a < 10 then ['0', digitChar a] else natToChars a

/-- Layout of a value with 6 significant digits `sig` (`100000 ≤ sig ≤
999999`) and decimal exponent `e`: fixed notation with trailing zeros removed
when `-4 ≤ e < 6`, scientific notation otherwise (the `%g` rules). -/
def formatG (sig : Nat) (e : Int) : List Char :=
  let digits := natToChars sig
  if -4 ≤ e ∧ e < 6 then
    if 0 ≤ e then
      let ip := digits.take (e.toNat + 1)
      let fp := stripZeros (digits.drop (e.toNat + 1))
      ip ++ (if fp.isEmpty then [] else '.' :: fp)
    else
      '0' :: '.' :: List.replicate (-(e + 1)).toNat '0' ++ stripZeros digits
  else
    let fp := stripZeros (digits.drop 1)
    digits.take 1 ++ (if fp.isEmpty then [] else '.' :: fp)
      ++ 'e' :: (if e < 0 then '-' else '+') :: expChars e.natAbs

/-- Output of `cout << d` for a `double` `d` (src/parser.cpp line 417): the
default stream precision is 6, giving `%g` semantics — 6 significant digits,
trailing zeros removed, fixed notation for exponents in `[-4, 6)` and
scientific notation otherwise.  The double is modelled as an exact rational;
binary rounding is not modelled (all float literals in the theorems below are
exactly representable and unaffected). -/
def doubleToChars (q : Rat) : List Char :=
  if q = 0 then ['0']
  else
    let sgn : List Char := if q < 0 then ['-'] else []
    let n := q.num.natAbs
    let d := q.den
    let e0 : Int := (digitCount n : Int) - (digitCount d : Int)
    let e : Int := if ratGePow10 n d e0 then e0 else e0 - 1
    let pq := scaledFrac n d e
    let sig := roundHalfEven pq.1 pq.2
    let sig' := if sig = 1000000 then 100000 else sig
    let e' := if sig = 1000000 then e + 1 else e
    sgn ++ formatG sig' e'

/-- Indentation: `string(indent, ' ')`. -/
def indentChars (n : Nat) : List Char := List.replicate n ' '

mutual

/-- print_json (src/parser.cpp lines 397-427), building the printed text as a
character list instead of writing to `cout`. -/
def print_json : JsonValue → Nat → List Char
  | .obj entries, indent => print_json_object entries indent
  | .arr elems, indent => print_json_array elems indent
  | .str s, _ => '\"' :: (s ++ ['\"'])
  | .int i, _ => intToChars i
  | .float q, _ => doubleToChars q
  | .bool b, _ => if b then "true".data else "false".data
  | .null, _ => "null".data

/-- print_json_object (src/parser.cpp lines 370-382). -/
def print_json_object (entries : List (List Char × JsonValue)) (indent : Nat) :
    List Char :=
  indentChars indent ++ '\x7b' :: '\n' ::
    (objEntriesChars entries indent ++ (indentChars indent ++ ['\x7d']))

/-- Body of the entry loop of print_json_object: one `"key": value` line per
entry, a comma after every entry but the last. -/
def objEntriesChars : List (List Char × JsonValue) → Nat → List Char
  | [], _ => []
  | (k, v) :: rest, indent =>
    indentChars (indent + 2) ++ '\"' :: (k ++ '\"' :: ':' :: ' ' ::
      print_json v (indent + 2))
      ++ (match rest with | [] => [] | _ :: _ => [','])
      ++ '\n' :: objEntriesChars rest indent

/-- print_json_array (src/parser.cpp lines 384-395). -/
def print_json_array (elems : List JsonValue) (indent : Nat) : List Char :=
  indentChars indent ++ '[' :: '\n' ::
    (arrElemsChars elems indent ++ (indentChars indent ++ [']']))

/-- Body of the element loop of print_json_array. -/
def arrElemsChars : List JsonValue → Nat → List Char
  | [], _ => []
  | v :: rest, indent =>
    print_json v (indent + 2)
      ++ (match rest with | [] => [] | _ :: _ => [','])
      ++ '\n' :: arrElemsChars rest indent

end

/-- The render entry point: print at indent level 0. -/
def render (v : JsonValue) : List Char := print_json v 0

/-- Top-level key list of an object value (the enumeration order of its
entries, which is also the order the renderer prints them in). -/
def objKeys : JsonValue → List (List Char)
  | .obj entries => entries.map Prod.fst
  | _ => []

/-- Claim C2 counterexample: the claim says `[1,2,]` fails with a comma/brace
error, but the code parses it successfully to `[1, 2]` — `consume_until_comma`
accepts the comma and the loop then reads `]` as the next element token and
terminates normally. -/
theorem c2_counterexample :
    parse "[1,2,]".data = .ok (.arr [.int 1, .int 2]) := rfl

/-- Claim C2, amended: trailing commas before the closing bracket/brace are
silently accepted, not rejected: `[1,2,]` parses to the array `[1, 2]` and
`{"a":1,}` parses to the object `{"a": 1}`. -/
theorem c2_trailing_comma_accepted :
    parse "[1,2,]".data = .ok (.arr [.int 1, .int 2]) ∧
    parse "\x7b\"a\":1,\x7d".data = .ok (.obj [("a".data, .int 1)]) :=
  ⟨rfl, rfl⟩

/-- Claim C4 counterexample: the claim says parse must not succeed returning
only the first value when non-EOF tokens remain, but on `"1 2"` (tokens
`NUMBER 1`, `NUMBER 2`, `EOF`) parse succeeds with `1` and never looks at the
second token. -/
theorem c4_counterexample : parse "1 2".data = .ok (.int 1) := rfl

/-- Claim C4, amended: `Parser::parse` advances once, parses one value from
that token, and returns it without any end-of-input check, so every token
after the first complete value is ignored: any token sequence starting with
`NUMBER 1` parses to `1` whatever follows, `"1 2"` parses to `1`, and
`"{} 5"` parses to the empty object. -/
theorem c4_first_value_only :
    (∀ rest : List Token, Parser.parse (⟨.NUMBER, .int 1⟩ :: rest) = .ok (.int 1)) ∧
    parse "1 2".data = .ok (.int 1) ∧
    parse "\x7b\x7d 5".data = .ok (.obj []) :=
  ⟨fun _ => rfl, rfl, rfl⟩

/-- Claim C8 counterexample: the claim says `"[1"` (EOF directly after an
element) fails with `UnterminatedArray`, but the code reaches EOF inside
`consume_until_comma`, which throws `Missing comma unless followed by`
(`MissingComma`), a different error. -/
theorem c8_counterexample :
    parse "[1".data = .error .MissingComma ∧ Err.MissingComma ≠ Err.UnterminatedArray :=
  ⟨rfl, by decide⟩

/-- Claim C8, amended: reaching the EOF token at an element/key position
(directly after `[` / `{` or after a comma) fails with `UnterminatedArray` /
`UnterminatedObject`; but reaching EOF directly after an element or key/value
pair, where a comma or closer is required, fails with the missing-comma error
instead. -/
theorem c8_unterminated_errors :
    (∀ (fuel : Nat) (tv : TokenValue) (acc : List JsonValue) (s : PState),
       parseF (fuel + 1) (.arrLoop ⟨.EOF_TOKEN, tv⟩ acc) s = .error .UnterminatedArray) ∧
    (∀ (fuel : Nat) (tv : TokenValue) (acc : List (List Char × JsonValue)) (s : PState),
       parseF (fuel + 1) (.objLoop ⟨.EOF_TOKEN, tv⟩ acc) s = .error .UnterminatedObject) ∧
    (∀ (pre post : List Token) (tv : TokenValue),
       consume_until_comma .RIGHT_SQUARE ⟨pre ++ ⟨.EOF_TOKEN, tv⟩ :: post, pre.length⟩ =
         .error .MissingComma) ∧
    (∀ (pre post : List Token) (tv : TokenValue),
       consume_until_comma .RIGHT_CURLY ⟨pre ++ ⟨.EOF_TOKEN, tv⟩ :: post, pre.length⟩ =
         .error .MissingComma) ∧
    parse "[".data = .error .UnterminatedArray ∧
    parse "[1,".data = .error .UnterminatedArray ∧
    parse "\x7b".data = .error .UnterminatedObject ∧
    parse "\x7b\"a\":1,".data = .error .UnterminatedObject ∧
    parse "[1".data = .error .MissingComma ∧
    parse "\x7b\"a\":1".data = .error .MissingComma := by
  refine ⟨fun fuel tv acc s => rfl, fun fuel tv acc s => rfl, ?_, ?_, rfl, rfl, rfl, rfl, rfl, rfl⟩
  · intro pre post tv
    simp [consume_until_comma, pGetCurr, List.get?_eq_getElem?,
      List.getElem?_append_right (Nat.le_refl pre.length)]
  · intro pre post tv
    simp [consume_until_comma, pGetCurr, List.get?_eq_getElem?,
      List.getElem?_append_right (Nat.le_refl pre.length)]

/-- Claim C1 counterexample: `JsonObject` derives from `std::map`, which keeps
its entries sorted by key, so parsing `{"name":"John","age":30,"car":null}`
yields the entries in the order `"age"`, `"car"`, `"name"` — not the claimed
first-appearance order `"name"`, `"age"`, `"car"`. -/
theorem c1_counterexample :
    parse "\x7b\"name\":\"John\",\"age\":30,\"car\":null\x7d".data =
      .ok (.obj [("age".data, .int 30), ("car".data, .null),
                 ("name".data, .str "John".data)]) ∧
    objKeys (.obj [("age".data, .int 30), ("car".data, .null),
                   ("name".data, .str "John".data)]) ≠
      ["name".data, "age".data, "car".data] :=
  ⟨rfl, by decide⟩

/-- Characters with different code points are different. -/
theorem char_ne_of_toNat {a b : Char} (h : a.toNat ≠ b.toNat) : a ≠ b :=
  fun e => h (congrArg Char.toNat e)

/-- Scanning a quote-free string followed by the closing quote consumes
exactly up to the quote and returns the quote-free part as payload. -/
theorem stringChars_append (s rest : List Char) (hs : '\"' ∉ s) :
    stringChars (s ++ '\"' :: rest) = some (s, rest) := by
  induction s with
  | nil => simp [stringChars]
  | cons c s ih =>
    have hc : c ≠ '\"' := fun e => hs (by simp [e])
    have hs' : '\"' ∉ s := fun m => hs (by simp [m])
    simp [stringChars, hc, ih hs']

/-- Scanning a quote-free string with no closing quote runs off the end. -/
theorem stringChars_no_close (s : List Char) (hs : '\"' ∉ s) :
    stringChars s = none := by
  induction s with
  | nil => rfl
  | cons c s ih =>
    have hc : c ≠ '\"' := fun e => hs (by simp [e])
    have hs' : '\"' ∉ s := fun m => hs (by simp [m])
    simp [stringChars, hc, ih hs']

/-- A digit run consumes exactly a maximal block of digits. -/
theorem digitRun_append (ds rest : List Char) (hds : ∀ c ∈ ds, isdigit c = true)
    (hrest : ∀ c r', rest = c :: r' → isdigit c = false) :
    digitRun (ds ++ rest) = (ds, rest) := by
  induction ds with
  | nil =>
    cases rest with
    | nil => rfl
    | cons c r' => simp [digitRun, hrest c r' rfl]
  | cons d ds ih =>
    have hd : isdigit d = true := hds d (by simp)
    have hds' : ∀ c ∈ ds, isdigit c = true := fun c m => hds c (by simp [m])
    simp [digitRun, hd, ih hds']

/-- An alphabetic run consumes exactly a maximal block of letters. -/
theorem alphaRun_append (cs rest : List Char) (hcs : ∀ c ∈ cs, isalpha c = true)
    (hrest : ∀ c r', rest = c :: r' → isalpha c = false) :
    alphaRun (cs ++ rest) = (cs, rest) := by
  induction cs with
  | nil =>
    cases rest with
    | nil => rfl
    | cons c r' => simp [alphaRun, hrest c r' rfl]
  | cons d cs ih =>
    have hd : isalpha d = true := hcs d (by simp)
    have hcs' : ∀ c ∈ cs, isalpha c = true := fun c m => hcs c (by simp [m])
    simp [alphaRun, hd, ih hcs']

/-- On a digit character, `scanToken` dispatches to `addNumber` (none of the
structural-character cases can fire). -/
theorem scanToken_digit (d : Char) (rest : List Char) (line : Nat)
    (hd : isdigit d = true) :
    scanToken d rest line =
      match addNumber false d rest with
      | .error e => .error e
      | .ok (t, r) => .ok ([t], r, line) := by
  have hb : 48 ≤ d.toNat ∧ d.toNat ≤ 57 := by simpa [isdigit] using hd
  have h1 : d ≠ '\x7b' := fun e => absurd hb (by subst e; decide)
  have h2 : d ≠ '\x7d' := fun e => absurd hb (by subst e; decide)
  have h3 : d ≠ '[' := fun e => absurd hb (by subst e; decide)
  have h4 : d ≠ ']' := fun e => absurd hb (by subst e; decide)
  have h5 : d ≠ ',' := fun e => absurd hb (by subst e; decide)
  have h6 : d ≠ ':' := fun e => absurd hb (by subst e; decide)
  have h7 : d ≠ '\n' := fun e => absurd hb (by subst e; decide)
  have h8 : d ≠ ' ' := fun e => absurd hb (by subst e; decide)
  have h9 : d ≠ '\"' := fun e => absurd hb (by subst e; decide)
  have h10 : d ≠ '-' := fun e => absurd hb (by subst e; decide)
  simp [scanToken, h1, h2, h3, h4, h5, h6, h7, h8, h9, h10, hd]

/-- On an alphabetic character, `scanToken` dispatches to `addKeyword`. -/
theorem scanToken_alpha (c : Char) (rest : List Char) (line : Nat)
    (hc : isalpha c = true) :
    scanToken c rest line =
      match addKeyword c rest with
      | .error e => .error e
      | .ok (t, r) => .ok ([t], r, line) := by
  have hb : (65 ≤ c.toNat ∧ c.toNat ≤ 90) ∨ (97 ≤ c.toNat ∧ c.toNat ≤ 122) := by
    simpa [isalpha, Bool.or_eq_true, Bool.and_eq_true, decide_eq_true_eq] using hc
  have h1 : c ≠ '\x7b' := fun e => absurd hb (by subst e; decide)
  have h2 : c ≠ '\x7d' := fun e => absurd hb (by subst e; decide)
  have h3 : c ≠ '[' := fun e => absurd hb (by subst e; decide)
  have h4 : c ≠ ']' := fun e => absurd hb (by subst e; decide)
  have h5 : c ≠ ',' := fun e => absurd hb (by subst e; decide)
  have h6 : c ≠ ':' := fun e => absurd hb (by subst e; decide)
  have h7 : c ≠ '\n' := fun e => absurd hb (by subst e; decide)
  have h8 : c ≠ ' ' := fun e => absurd hb (by subst e; decide)
  have h9 : c ≠ '\"' := fun e => absurd hb (by subst e; decide)
  have h10 : c ≠ '-' := fun e => absurd hb (by subst e; decide)
  have hle : ¬ c.toNat ≤ 57 := by rcases hb with h | h <;> omega
  have hd : isdigit c = false := by
    simp [isdigit, decide_eq_false hle]
  simp [scanToken, h1, h2, h3, h4, h5, h6, h7, h8, h9, h10, hd, hc]

/-- Claim C3 counterexample: on the input `"a\"` (opening quote, `a`,
backslash, quote) the claim demands `UnterminatedString` — the backslash-
escaped quote should not terminate the literal and no closing quote follows —
but the scanner stops at the escaped quote and succeeds, returning the
payload `a\`. -/
theorem c3_counterexample :
    scan "\"a\\\"".data =
      .ok [⟨.STRING, .str ['a', '\\']⟩, ⟨.EOF_TOKEN, .mono⟩] := rfl

/-- Claim C3, amended: on an opening quote the scanner consumes characters up
to the next `"` whether or not it is preceded by a backslash; the token
payload is exactly the substring between the opening quote and that first
quote, passed through literally; and if no `"` at all occurs before the end
of input the scan fails with `UnterminatedString`. -/
theorem c3_string_scanning :
    (∀ (s rest : List Char) (line : Nat), '\"' ∉ s →
       scanToken '\"' (s ++ '\"' :: rest) line =
         .ok ([⟨.STRING, .str s⟩], rest, line)) ∧
    (∀ (s : List Char) (line : Nat), '\"' ∉ s →
       scanToken '\"' s line = .error .UnterminatedString) := by
  constructor
  · intro s rest line hs
    simp [scanToken, addString, stringChars_append s rest hs]
  · intro s line hs
    simp [scanToken, addString, stringChars_no_close s hs]

/-- Claim C3 witness: instantiating the amended theorem at the concrete
literal `"ab"` followed by `x`, and at the unterminated input `"ab`. -/
theorem c3_witness :
    scanToken '\"' (['a', 'b'] ++ '\"' :: ['x']) 1 =
      .ok ([⟨.STRING, .str ['a', 'b']⟩], ['x'], 1) ∧
    scanToken '\"' ['a', 'b'] 1 = .error .UnterminatedString :=
  ⟨c3_string_scanning.1 ['a', 'b'] ['x'] 1 (by decide),
   c3_string_scanning.2 ['a', 'b'] 1 (by decide)⟩


/-- addNumber on a maximal digit run not followed by a decimal point takes the
integer branch (`std::stoi`). -/
theorem addNumber_int_spec (neg : Bool) (d : Char) (ds rest : List Char)
    (hds : ∀ c ∈ ds, isdigit c = true)
    (hrest : ∀ c r', rest = c :: r' → isdigit c = false ∧ c ≠ '.') :
    addNumber neg d (ds ++ rest) =
      (if neg then
        (if digitsToNat (d :: ds) ≤ 2147483648 then
          .ok (⟨.NUMBER, .int (-(digitsToNat (d :: ds) : Int))⟩, rest)
        else .error .IntOutOfRange)
      else
        (if digitsToNat (d :: ds) ≤ 2147483647 then
          .ok (⟨.NUMBER, .int (digitsToNat (d :: ds) : Int)⟩, rest)
        else .error .IntOutOfRange)) := by
  have hdr := digitRun_append ds rest hds (fun c r' e => (hrest c r' e).1)
  have hne : getCurrValue rest ≠ '.' := by
    cases rest with
    | nil => decide
    | cons c r' => simpa [getCurrValue] using (hrest c r' rfl).2
  simp only [addNumber, hdr]
  simp [hne]


/-- addNumber on a digit run, a decimal point and a second digit run takes the
float branch (`std::stod`). -/
theorem addNumber_float_spec (neg : Bool) (d d2 : Char) (ds ds2 rest : List Char)
    (hds : ∀ c ∈ ds, isdigit c = true) (hd2 : isdigit d2 = true)
    (hds2 : ∀ c ∈ ds2, isdigit c = true)
    (hrest : ∀ c r', rest = c :: r' → isdigit c = false) :
    addNumber neg d (ds ++ '.' :: d2 :: (ds2 ++ rest)) =
      .ok (⟨.NUMBER, .float (stodVal neg (d :: ds) (d2 :: ds2))⟩, rest) := by
  have hdr : digitRun (ds ++ '.' :: d2 :: (ds2 ++ rest)) = (ds, '.' :: d2 :: (ds2 ++ rest)) := by
    refine digitRun_append ds ('.' :: d2 :: (ds2 ++ rest)) hds ?_
    intro c r' e
    injection e with h1 h2
    rw [← h1]
    decide
  have hdr2 := digitRun_append ds2 rest hds2 (fun c r' e => hrest c r' e)
  simp only [addNumber, hdr]
  simp [getCurrValue, getNextValue, hd2, digitRun, hdr2]

/-- Claim C6: number variant selection is purely lexical.  A maximal digit run
not followed by `.` produces the integer-variant token with the decimal value
of its digits (when that value fits `int`); a digit run followed by `.` and a
digit run produces the float-variant token with the `stod` value; and the
concrete literals of the claim parse to integer `3`, float `3.0`, float `3.5`
and integer `-3`. -/
theorem c6_number_variant :
    (∀ (d : Char) (ds rest : List Char) (line : Nat),
       isdigit d = true → (∀ c ∈ ds, isdigit c = true) →
       (∀ c r', rest = c :: r' → isdigit c = false ∧ c ≠ '.') →
       digitsToNat (d :: ds) ≤ 2147483647 →
       scanToken d (ds ++ rest) line =
         .ok ([⟨.NUMBER, .int (digitsToNat (d :: ds))⟩], rest, line)) ∧
    (∀ (d d2 : Char) (ds ds2 rest : List Char) (line : Nat),
       isdigit d = true → (∀ c ∈ ds, isdigit c = true) →
       isdigit d2 = true → (∀ c ∈ ds2, isdigit c = true) →
       (∀ c r', rest = c :: r' → isdigit c = false) →
       scanToken d (ds ++ '.' :: d2 :: (ds2 ++ rest)) line =
         .ok ([⟨.NUMBER, .float (stodVal false (d :: ds) (d2 :: ds2))⟩], rest, line)) ∧
    parse "3".data = .ok (.int 3) ∧
    parse "3.0".data = .ok (.float 3) ∧
    parse "3.5".data = .ok (.float (7 / 2)) ∧
    parse "-3".data = .ok (.int (-3)) := by
  refine ⟨?_, ?_, rfl, ?_, ?_, rfl⟩
  · intro d ds rest line hd hds hrest hrange
    rw [scanToken_digit d (ds ++ rest) line hd,
      addNumber_int_spec false d ds rest hds hrest]
    simp [hrange]
  · intro d d2 ds ds2 rest line hd hds hd2 hds2 hrest
    rw [scanToken_digit d (ds ++ '.' :: d2 :: (ds2 ++ rest)) line hd,
      addNumber_float_spec false d d2 ds ds2 rest hds hd2 hds2 hrest]
  · have h : stodVal false ['3'] ['0'] = 3 := by
      have a : '3'.toNat - 48 = 3 := by decide
      have b : '0'.toNat - 48 = 0 := by decide
      unfold stodVal
      norm_num [digitsToNat, a, b]
    calc parse "3.0".data = .ok (.float (stodVal false ['3'] ['0'])) := rfl
      _ = .ok (.float 3) := by rw [h]
  · have h : stodVal false ['3'] ['5'] = 7 / 2 := by
      have a : '3'.toNat - 48 = 3 := by decide
      have b : '5'.toNat - 48 = 5 := by decide
      unfold stodVal
      norm_num [digitsToNat, a, b]
    calc parse "3.5".data = .ok (.float (stodVal false ['3'] ['5'])) := rfl
      _ = .ok (.float (7 / 2)) := by rw [h]

/-- Claim C6 witness: instantiating both universal clauses at concrete
literals, `7` and `3.5`. -/
theorem c6_witness :
    scanToken '7' [] 1 = .ok ([⟨.NUMBER, .int 7⟩], [], 1) ∧
    scanToken '3' ('.' :: '5' :: []) 1 =
      .ok ([⟨.NUMBER, .float (stodVal false ['3'] ['5'])⟩], [], 1) := by
  constructor
  · have h := c6_number_variant.1 '7' [] [] 1 (by decide)
      (by intro c m; simp at m) (by intro c r' e; cases e) (by decide)
    simpa using h
  · have h := c6_number_variant.2.1 '3' '5' [] [] [] 1 (by decide)
      (by intro c m; simp at m) (by decide) (by intro c m; simp at m)
      (by intro c r' e; cases e)
    simpa using h

/-- A token returned by addString is a STRING token. -/
theorem addString_type {rest : List Char} {t : Token} {r : List Char}
    (h : addString rest = .ok (t, r)) : t.token_type = .STRING := by
  unfold addString at h
  split at h
  · exact absurd h (by simp)
  · simp only [Except.ok.injEq, Prod.mk.injEq] at h
    rw [← h.1]

/-- A token returned by addNumber is a NUMBER token. -/
theorem addNumber_type {neg : Bool} {d : Char} {rest : List Char} {t : Token}
    {r : List Char} (h : addNumber neg d rest = .ok (t, r)) :
    t.token_type = .NUMBER := by
  simp only [addNumber] at h
  split_ifs at h
  all_goals try (exfalso; exact Except.noConfusion h)
  all_goals injection h with h'
  all_goals injection h' with h1 h2
  all_goals rw [← h1]

/-- A token returned by addKeyword is a BOOLEAN or NULL token. -/
theorem addKeyword_type {c : Char} {rest : List Char} {t : Token}
    {r : List Char} (h : addKeyword c rest = .ok (t, r)) :
    t.token_type = .BOOLEAN ∨ t.token_type = .NULL_VALUE := by
  simp only [addKeyword] at h
  repeat' split at h
  all_goals simp at h
  all_goals rw [← h.1]
  all_goals decide


/-- Well-formedness of a token as the Scanner produces it: a STRING token
carries a string payload free of `"` (the scanner stops at the first quote),
a NUMBER token carries an `int` payload within the 32-bit `int` range that
`std::stoi` enforces, or a float payload; BOOLEAN carries a bool.  Structural
tokens and EOF are unconstrained. -/
def TokGood : Token → Prop
  | ⟨.STRING, .str s⟩ => '\"' ∉ s
  | ⟨.STRING, _⟩ => False
  | ⟨.NUMBER, .int i⟩ => -2147483648 ≤ i ∧ i ≤ 2147483647
  | ⟨.NUMBER, .float _⟩ => True
  | ⟨.NUMBER, _⟩ => False
  | ⟨.BOOLEAN, .bool _⟩ => True
  | ⟨.BOOLEAN, _⟩ => False
  | _ => True

/-- Payload/rest extraction from an ok triple equality. -/
theorem ok_triple_inj {a ts : List Token} {b rest' : List Char} {c line' : Nat}
    (h : (.ok (a, b, c) : Except Err (List Token × List Char × Nat)) =
      .ok (ts, rest', line')) : a = ts ∧ b = rest' := by
  injection h with h'
  injection h' with h1 h2
  injection h2 with h3 h4
  exact ⟨h1, h3⟩

/-- The payload of a scanned string literal never contains a quote. -/
theorem stringChars_no_quote {s p r : List Char}
    (h : stringChars s = some (p, r)) : '\"' ∉ p := by
  induction s generalizing p r with
  | nil => simp [stringChars] at h
  | cons c rest ih =>
    unfold stringChars at h
    split at h
    · injection h with h'
      injection h' with h1 h2
      rw [← h1]
      simp
    · rename_i hc
      split at h
      · simp at h
      · rename_i p' r' heq
        injection h with h'
        injection h' with h1 h2
        rw [← h1]
        intro hm
        rcases List.mem_cons.mp hm with h' | h'
        · exact hc h'.symm
        · exact ih heq h'

/-- Everything addString returns is a STRING token with a quote-free payload. -/
theorem addString_good {rest : List Char} {t : Token} {r : List Char}
    (h : addString rest = .ok (t, r)) :
    t.token_type = .STRING ∧ TokGood t := by
  unfold addString at h
  split at h
  · simp at h
  · rename_i p r' heq
    injection h with h'
    injection h' with h1 h2
    rw [← h1]
    exact ⟨rfl, stringChars_no_quote heq⟩

/-- Everything addNumber returns is a NUMBER token with an in-range int
payload or a float payload. -/
theorem addNumber_good {neg : Bool} {d : Char} {rest : List Char} {t : Token}
    {r : List Char} (h : addNumber neg d rest = .ok (t, r)) :
    t.token_type = .NUMBER ∧ TokGood t := by
  simp only [addNumber] at h
  split_ifs at h with hc1 hc2 hc3 hc4 hc5
  all_goals try (exfalso; exact Except.noConfusion h)
  all_goals injection h with h'
  all_goals injection h' with h1 h2
  all_goals rw [← h1]
  · exact ⟨rfl, trivial⟩
  · exact ⟨rfl, by omega, by omega⟩
  · exact ⟨rfl, by omega, by omega⟩

/-- Everything addKeyword returns is a BOOLEAN or NULL token. -/
theorem addKeyword_good {c : Char} {rest : List Char} {t : Token}
    {r : List Char} (h : addKeyword c rest = .ok (t, r)) :
    (t.token_type = .BOOLEAN ∨ t.token_type = .NULL_VALUE) ∧ TokGood t := by
  simp only [addKeyword] at h
  repeat' split at h
  all_goals try (exfalso; exact Except.noConfusion h)
  all_goals injection h with h'
  all_goals injection h' with h1 h2
  all_goals rw [← h1]
  · exact ⟨Or.inl rfl, trivial⟩
  · exact ⟨Or.inl rfl, trivial⟩
  · exact ⟨Or.inr rfl, trivial⟩

/-- On the opening-quote character, scanToken dispatches to addString. -/
theorem scanToken_quote (rest : List Char) (line : Nat) :
    scanToken '\"' rest line =
      (match addString rest with
       | Except.error e => Except.error e
       | Except.ok (t, r) => Except.ok ([t], r, line)) := rfl

/-- On `-`, scanToken requires a following digit and dispatches to addNumber
with the sign consumed. -/
theorem scanToken_minus (rest : List Char) (line : Nat) :
    scanToken '-' rest line =
      (match rest with
       | [] => Except.error Err.MinusWithoutDigit
       | d :: rest2 =>
         if isdigit d = true then
           match addNumber true d rest2 with
           | Except.error e => Except.error e
           | Except.ok (t, r) => Except.ok ([t], r, line)
         else Except.error Err.MinusWithoutDigit) := rfl

/-- Every token scanToken pushes is a non-EOF, well-formed token. -/
theorem scanToken_tokens_ok {c : Char} {rest : List Char} {line : Nat}
    {ts : List Token} {rest' : List Char} {line' : Nat}
    (h : scanToken c rest line = .ok (ts, rest', line')) :
    ∀ t ∈ ts, t.token_type ≠ .EOF_TOKEN ∧ TokGood t := by
  by_cases h1 : c = '\x7b'
  · subst h1
    rw [← (ok_triple_inj h).1]
    intro t ht
    simp at ht
    subst ht
    exact ⟨by decide, trivial⟩
  by_cases h2 : c = '\x7d'
  · subst h2
    rw [← (ok_triple_inj h).1]
    intro t ht
    simp at ht
    subst ht
    exact ⟨by decide, trivial⟩
  by_cases h3 : c = '['
  · subst h3
    rw [← (ok_triple_inj h).1]
    intro t ht
    simp at ht
    subst ht
    exact ⟨by decide, trivial⟩
  by_cases h4 : c = ']'
  · subst h4
    rw [← (ok_triple_inj h).1]
    intro t ht
    simp at ht
    subst ht
    exact ⟨by decide, trivial⟩
  by_cases h5 : c = ','
  · subst h5
    rw [← (ok_triple_inj h).1]
    intro t ht
    simp at ht
    subst ht
    exact ⟨by decide, trivial⟩
  by_cases h6 : c = ':'
  · subst h6
    rw [← (ok_triple_inj h).1]
    intro t ht
    simp at ht
    subst ht
    exact ⟨by decide, trivial⟩
  by_cases h7 : c = '\n'
  · subst h7
    rw [← (ok_triple_inj h).1]
    intro t ht
    simp at ht
  by_cases h8 : c = ' '
  · subst h8
    rw [← (ok_triple_inj h).1]
    intro t ht
    simp at ht
  by_cases h9 : c = '\"'
  · subst h9
    rw [scanToken_quote rest line] at h
    split at h
    · exact absurd h (by simp)
    · rename_i t0 r0 heq
      rw [← (ok_triple_inj h).1]
      intro t ht
      simp at ht
      subst ht
      obtain ⟨hty, hg⟩ := addString_good heq
      exact ⟨by rw [hty]; decide, hg⟩
  by_cases h10 : c = '-'
  · subst h10
    rw [scanToken_minus rest line] at h
    split at h
    · exact absurd h (by simp)
    · rename_i d rest2
      split at h
      · split at h
        · exact absurd h (by simp)
        · rename_i t0 r0 heq
          rw [← (ok_triple_inj h).1]
          intro t ht
          simp at ht
          subst ht
          obtain ⟨hty, hg⟩ := addNumber_good heq
          exact ⟨by rw [hty]; decide, hg⟩
      · exact absurd h (by simp)
  by_cases h11 : isdigit c = true
  · rw [scanToken_digit c rest line h11] at h
    split at h
    · exact absurd h (by simp)
    · rename_i t0 r0 heq
      rw [← (ok_triple_inj h).1]
      intro t ht
      simp at ht
      subst ht
      obtain ⟨hty, hg⟩ := addNumber_good heq
      exact ⟨by rw [hty]; decide, hg⟩
  by_cases h12 : isalpha c = true
  · rw [scanToken_alpha c rest line h12] at h
    split at h
    · exact absurd h (by simp)
    · rename_i t0 r0 heq
      rw [← (ok_triple_inj h).1]
      intro t ht
      simp at ht
      subst ht
      obtain ⟨hty, hg⟩ := addKeyword_good heq
      refine ⟨?_, hg⟩
      rcases hty with hk | hk <;> rw [hk] <;> decide
  · rw [show scanToken c rest line = Except.error Err.UnexpectedTokenScan by
      simp [scanToken, h1, h2, h3, h4, h5, h6, h7, h8, h9, h10, h11, h12]] at h
    exact absurd h (by simp)

/-- Every token scanLoop collects is a non-EOF, well-formed token. -/
theorem scanLoop_tokens_ok :
    ∀ (fuel : Nat) (s : List Char) (line : Nat) (ts : List Token),
      scanLoop fuel s line = .ok ts →
      ∀ t ∈ ts, t.token_type ≠ .EOF_TOKEN ∧ TokGood t := by
  intro fuel
  induction fuel with
  | zero => intro s line ts h; exact absurd h (by simp [scanLoop])
  | succ fuel ih =>
    intro s line ts h
    cases s with
    | nil =>
      unfold scanLoop at h
      injection h with h1
      rw [← h1]
      intro t ht
      simp at ht
    | cons c rest =>
      unfold scanLoop at h
      split at h
      · exact absurd h (by simp)
      · rename_i ts0 rest0 line0 heq
        split at h
        · exact absurd h (by simp)
        · rename_i ts2 heq2
          injection h with h1
          rw [← h1]
          intro t ht
          rcases List.mem_append.mp ht with hm | hm
          · exact scanToken_tokens_ok heq t hm
          · exact ih rest0 line0 ts2 heq2 t hm

/-- Claim C7: whenever scan succeeds, the returned token sequence is some
EOF-free token list followed by exactly one final EOF token — for every
input, including the empty string. -/
theorem c7_eof_terminated :
    ∀ (s : List Char) (ts : List Token), scan s = .ok ts →
      ∃ ts0, ts = ts0 ++ [⟨.EOF_TOKEN, .mono⟩] ∧
        ∀ t ∈ ts0, t.token_type ≠ .EOF_TOKEN := by
  intro s ts h
  unfold scan at h
  split at h
  · exact absurd h (by simp)
  · rename_i ts1 heq
    injection h with h1
    exact ⟨ts1, h1.symm, fun t m => (scanLoop_tokens_ok _ _ _ _ heq t m).1⟩

/-- Claim C7 witness: the theorem applied to the concrete inputs `1` (one
token before EOF) and the empty string (only the EOF token). -/
theorem c7_witness :
    (∃ ts0, ([⟨.NUMBER, .int 1⟩, ⟨.EOF_TOKEN, .mono⟩] : List Token) =
        ts0 ++ [⟨.EOF_TOKEN, .mono⟩] ∧
      ∀ t ∈ ts0, t.token_type ≠ .EOF_TOKEN) ∧
    (∃ ts0, ([⟨.EOF_TOKEN, .mono⟩] : List Token) = ts0 ++ [⟨.EOF_TOKEN, .mono⟩] ∧
      ∀ t ∈ ts0, t.token_type ≠ .EOF_TOKEN) :=
  ⟨c7_eof_terminated "1".data _ rfl, c7_eof_terminated "".data _ rfl⟩

/-- The rest returned by the string loop is within the input. -/
theorem stringChars_length :
    ∀ {s p r : List Char}, stringChars s = some (p, r) → r.length ≤ s.length := by
  intro s
  induction s with
  | nil => intro p r h; simp [stringChars] at h
  | cons c rest ih =>
    intro p r h
    unfold stringChars at h
    split at h
    · injection h with h'
      injection h' with h1 h2
      rw [← h2]
      simp
    · split at h
      · simp at h
      · rename_i p' r' heq
        injection h with h'
        injection h' with h1 h2
        rw [← h2]
        exact Nat.le_succ_of_le (ih heq)

/-- The rest of a digit run is within the input. -/
theorem digitRun_length : ∀ s : List Char, (digitRun s).2.length ≤ s.length := by
  intro s
  induction s with
  | nil => simp [digitRun]
  | cons c rest ih =>
    unfold digitRun
    split
    · exact Nat.le_succ_of_le ih
    · simp

/-- The rest of an alphabetic run is within the input. -/
theorem alphaRun_length : ∀ s : List Char, (alphaRun s).2.length ≤ s.length := by
  intro s
  induction s with
  | nil => simp [alphaRun]
  | cons c rest ih =>
    unfold alphaRun
    split
    · exact Nat.le_succ_of_le ih
    · simp

/-- The rest returned by addNumber is within the input. -/
theorem addNumber_length {neg : Bool} {d : Char} {rest : List Char} {t : Token}
    {r : List Char} (h : addNumber neg d rest = .ok (t, r)) :
    r.length ≤ rest.length := by
  have hd1 := digitRun_length rest
  have hd2 := digitRun_length ((digitRun rest).2.drop 1)
  have hd3 : ((digitRun rest).2.drop 1).length = (digitRun rest).2.length - 1 := by
    simp
  simp only [addNumber] at h
  split_ifs at h
  all_goals try (exfalso; exact Except.noConfusion h)
  all_goals injection h with h'
  all_goals injection h' with h1 h2
  all_goals rw [← h2]
  all_goals omega

/-- The rest returned by addString is within the input. -/
theorem addString_length {rest : List Char} {t : Token} {r : List Char}
    (h : addString rest = .ok (t, r)) : r.length ≤ rest.length := by
  unfold addString at h
  split at h
  · simp at h
  · rename_i p r' heq
    injection h with h'
    injection h' with h1 h2
    rw [← h2]
    exact stringChars_length heq

/-- The rest returned by addKeyword is within the input. -/
theorem addKeyword_length {c : Char} {rest : List Char} {t : Token}
    {r : List Char} (h : addKeyword c rest = .ok (t, r)) :
    r.length ≤ rest.length := by
  have ha := alphaRun_length rest
  simp only [addKeyword] at h
  repeat' split at h
  all_goals try (exfalso; exact Except.noConfusion h)
  all_goals injection h with h'
  all_goals injection h' with h1 h2
  all_goals rw [← h2]
  all_goals exact ha

/-- One scanToken step never grows the remaining input. -/
theorem scanToken_len {c : Char} {rest : List Char} {line : Nat}
    {ts : List Token} {rest' : List Char} {line' : Nat}
    (h : scanToken c rest line = .ok (ts, rest', line')) :
    rest'.length ≤ rest.length := by
  by_cases h1 : c = '\x7b'
  · subst h1; rw [← (ok_triple_inj h).2]
  by_cases h2 : c = '\x7d'
  · subst h2; rw [← (ok_triple_inj h).2]
  by_cases h3 : c = '['
  · subst h3; rw [← (ok_triple_inj h).2]
  by_cases h4 : c = ']'
  · subst h4; rw [← (ok_triple_inj h).2]
  by_cases h5 : c = ','
  · subst h5; rw [← (ok_triple_inj h).2]
  by_cases h6 : c = ':'
  · subst h6; rw [← (ok_triple_inj h).2]
  by_cases h7 : c = '\n'
  · subst h7; rw [← (ok_triple_inj h).2]
  by_cases h8 : c = ' '
  · subst h8; rw [← (ok_triple_inj h).2]
  by_cases h9 : c = '\"'
  · subst h9
    rw [scanToken_quote rest line] at h
    split at h
    · exact absurd h (by simp)
    · rename_i t0 r0 heq
      rw [← (ok_triple_inj h).2]
      exact addString_length heq
  by_cases h10 : c = '-'
  · subst h10
    rw [scanToken_minus rest line] at h
    split at h
    · exact absurd h (by simp)
    · rename_i d rest2
      split at h
      · split at h
        · exact absurd h (by simp)
        · rename_i t0 r0 heq
          rw [← (ok_triple_inj h).2]
          exact Nat.le_succ_of_le (addNumber_length heq)
      · exact absurd h (by simp)
  by_cases h11 : isdigit c = true
  · rw [scanToken_digit c rest line h11] at h
    split at h
    · exact absurd h (by simp)
    · rename_i t0 r0 heq
      rw [← (ok_triple_inj h).2]
      exact addNumber_length heq
  by_cases h12 : isalpha c = true
  · rw [scanToken_alpha c rest line h12] at h
    split at h
    · exact absurd h (by simp)
    · rename_i t0 r0 heq
      rw [← (ok_triple_inj h).2]
      exact addKeyword_length heq
  · rw [show scanToken c rest line = Except.error Err.UnexpectedTokenScan by
      simp [scanToken, h1, h2, h3, h4, h5, h6, h7, h8, h9, h10, h11, h12]] at h
    exact absurd h (by simp)

/-- scanToken never reports the embedding-internal out-of-fuel marker. -/
theorem scanToken_no_fuelout (c : Char) (rest : List Char) (line : Nat) :
    scanToken c rest line ≠ .error .FuelOut := by
  by_cases h1 : c = '\x7b'
  · subst h1; simp [scanToken]
  by_cases h2 : c = '\x7d'
  · subst h2; simp [scanToken]
  by_cases h3 : c = '['
  · subst h3; simp [scanToken]
  by_cases h4 : c = ']'
  · subst h4; simp [scanToken]
  by_cases h5 : c = ','
  · subst h5; simp [scanToken]
  by_cases h6 : c = ':'
  · subst h6; simp [scanToken]
  by_cases h7 : c = '\n'
  · subst h7; simp [scanToken]
  by_cases h8 : c = ' '
  · subst h8; simp [scanToken]
  by_cases h9 : c = '\"'
  · subst h9
    rw [scanToken_quote rest line]
    rcases hsc : stringChars rest with - | ⟨p, r⟩ <;> simp [addString, hsc]
  by_cases h10 : c = '-'
  · subst h10
    rw [scanToken_minus rest line]
    split
    · simp
    · split
      · simp only [addNumber]
        split_ifs <;> simp
      · simp
  by_cases h11 : isdigit c = true
  · rw [scanToken_digit c rest line h11]
    simp only [addNumber]
    split_ifs <;> simp
  by_cases h12 : isalpha c = true
  · rw [scanToken_alpha c rest line h12]
    simp only [addKeyword]
    split_ifs <;> simp
  · simp [scanToken, h1, h2, h3, h4, h5, h6, h7, h8, h9, h10, h11, h12]

/-- With fuel exceeding the input length, the scan loop never runs out of
fuel: every scanToken step consumes at least one character. -/
theorem scanLoop_no_fuelout :
    ∀ (fuel : Nat) (s : List Char) (line : Nat), s.length < fuel →
      scanLoop fuel s line ≠ .error .FuelOut := by
  intro fuel
  induction fuel with
  | zero => intro s line hlen; omega
  | succ fuel ih =>
    intro s line hlen
    cases s with
    | nil => simp [scanLoop]
    | cons c rest =>
      unfold scanLoop
      split
      · rename_i e heq
        intro hcon
        injection hcon with h1
        rw [h1] at heq
        exact scanToken_no_fuelout c rest line heq
      · rename_i ts0 rest0 line0 heq
        split
        · rename_i e heq2
          intro hcon
          injection hcon with h1
          rw [h1] at heq2
          have hl : rest0.length < fuel := by
            have := scanToken_len heq
            simp at hlen
            omega
          exact ih rest0 line0 hl heq2
        · simp

/-- Claim C9: scan is total and terminating on every finite input — with the
fuel bound `length + 1` the loop always completes (each scanToken step
strictly consumes at least the dispatched character), so scan either returns
a token sequence or fails with a lexical error, never with exhaustion; and
every single scanning step strictly shrinks the remaining input. -/
theorem c9_scan_total :
    (∀ s : List Char, scan s ≠ .error .FuelOut) ∧
    (∀ (c : Char) (rest : List Char) (line : Nat) (ts : List Token)
       (rest' : List Char) (line' : Nat),
       scanToken c rest line = .ok (ts, rest', line') →
       rest'.length < (c :: rest).length) := by
  constructor
  · intro s
    unfold scan
    split
    · rename_i e heq
      intro hcon
      injection hcon with h1
      rw [h1] at heq
      exact scanLoop_no_fuelout (s.length + 1) s 1 (Nat.lt_succ_self _) heq
    · simp
  · intro c rest line ts rest' line' h
    have := scanToken_len h
    simp
    omega

/-- Claim C9 witness: the scan-step progress clause applied at a concrete
step (scanning the single digit `1`), and the totality clause at the empty
input. -/
theorem c9_witness :
    ([] : List Char).length < (['1'] : List Char).length ∧
    scan "".data ≠ .error .FuelOut :=
  ⟨c9_scan_total.2 '1' [] 1 [⟨.NUMBER, .int 1⟩] [] 1 rfl, c9_scan_total.1 "".data⟩

/-- Claim C5 counterexample: the float-variant value parsed from `3.0` does
not round-trip to a float-variant leaf.  `cout << 3.0` prints `3` (default
precision strips the fractional part of a whole-valued double), and parsing
`3` yields the integer variant. -/
theorem c5_counterexample :
    parse "3.0".data = .ok (.float 3) ∧
    render (.float 3) = "3".data ∧
    parse (render (.float 3)) = .ok (.int 3) := by
  have hr : render (.float 3) = "3".data := by
    have h1 : print_json (.float 3) 0 = doubleToChars 3 := by simp [print_json]
    have h2 : doubleToChars 3 = ['3'] := by decide
    rw [render, h1, h2]
  refine ⟨?_, hr, ?_⟩
  · have h : stodVal false ['3'] ['0'] = 3 := by
      have a : '3'.toNat - 48 = 3 := by decide
      have b : '0'.toNat - 48 = 0 := by decide
      unfold stodVal
      norm_num [digitsToNat, a, b]
    calc parse "3.0".data = .ok (.float (stodVal false ['3'] ['0'])) := rfl
      _ = .ok (.float 3) := by rw [h]
  · rw [hr]
    rfl

/-- Characters with equal code points are equal. -/
theorem char_eq_of_toNat {a b : Char} (h : a.toNat = b.toNat) : a = b := by
  cases a with
  | mk av ah =>
    cases b with
    | mk bv bh =>
      have : av = bv := UInt32.ext h
      subst this
      rfl

/-- lexLt is irreflexive. -/
theorem lexLt_irrefl : ∀ a : List Char, lexLt a a = false := by
  intro a
  induction a with
  | nil => rfl
  | cons c a ih => simp [lexLt, ih]

/-- lexLt is transitive. -/
theorem lexLt_trans : ∀ a b c : List Char,
    lexLt a b = true → lexLt b c = true → lexLt a c = true := by
  intro a
  induction a with
  | nil =>
    intro b c hab hbc
    cases b with
    | nil => simp [lexLt] at hab
    | cons d bs =>
      cases c with
      | nil => simp [lexLt] at hbc
      | cons e cs => rfl
  | cons x as ih =>
    intro b c hab hbc
    cases b with
    | nil => simp [lexLt] at hab
    | cons d bs =>
      cases c with
      | nil => simp [lexLt] at hbc
      | cons e cs =>
        unfold lexLt at hab hbc ⊢
        by_cases h1 : x.toNat < d.toNat
        · by_cases h2 : d.toNat < e.toNat
          · simp [show x.toNat < e.toNat by omega]
          · by_cases h3 : e.toNat < d.toNat
            · simp [h2, h3] at hbc
            · simp [show x.toNat < e.toNat by omega]
        · by_cases h1' : d.toNat < x.toNat
          · simp [h1, h1'] at hab
          · have hxd : x.toNat = d.toNat := by omega
            by_cases h2 : d.toNat < e.toNat
            · simp [show x.toNat < e.toNat by omega]
            · by_cases h3 : e.toNat < d.toNat
              · simp [h2, h3] at hbc
              · simp [h1, h1'] at hab
                simp [h2, h3] at hbc
                simp [show ¬ x.toNat < e.toNat by omega,
                  show ¬ e.toNat < x.toNat by omega]
                exact ih bs cs hab hbc

/-- lexLt is asymmetric. -/
theorem lexLt_asymm : ∀ a b : List Char,
    lexLt a b = true → lexLt b a = false := by
  intro a
  induction a with
  | nil =>
    intro b hab
    cases b with
    | nil => simp [lexLt] at hab
    | cons d bs => rfl
  | cons x as ih =>
    intro b hab
    cases b with
    | nil => simp [lexLt] at hab
    | cons d bs =>
      unfold lexLt at hab ⊢
      by_cases h1 : x.toNat < d.toNat
      · simp [show ¬ d.toNat < x.toNat by omega, h1]
      · by_cases h2 : d.toNat < x.toNat
        · simp [h1, h2] at hab
        · simp [h1, h2] at hab ⊢
          exact ih bs hab

/-- lexLt-related lists are distinct. -/
theorem lexLt_ne {a b : List Char} (h : lexLt a b = true) : a ≠ b := by
  intro e
  subst e
  rw [lexLt_irrefl a] at h
  exact Bool.noConfusion h

/-- lexLt is connex: incomparable lists are equal. -/
theorem lexLt_connex : ∀ a b : List Char,
    lexLt a b = false → a ≠ b → lexLt b a = true := by
  intro a
  induction a with
  | nil =>
    intro b hab hne
    cases b with
    | nil => exact absurd rfl hne
    | cons d bs => simp [lexLt] at hab
  | cons x as ih =>
    intro b hab hne
    cases b with
    | nil => rfl
    | cons d bs =>
      unfold lexLt at hab ⊢
      by_cases h1 : x.toNat < d.toNat
      · simp [h1] at hab
      · by_cases h2 : d.toNat < x.toNat
        · simp [h2]
        · simp [h1, h2] at hab ⊢
          have hxd : x = d := char_eq_of_toNat (by omega)
          subst hxd
          refine ih bs hab ?_
          intro e
          exact hne (by rw [e])

/-- Everything in `mapInsert k v l` is `(k, v)` or was in `l`. -/
theorem mapInsert_mem {k : List Char} {v : JsonValue}
    {l : List (List Char × JsonValue)} :
    ∀ p ∈ mapInsert k v l, p = (k, v) ∨ p ∈ l := by
  induction l with
  | nil => intro p hp; simp [mapInsert] at hp; exact Or.inl hp
  | cons q rest ih =>
    intro p hp
    unfold mapInsert at hp
    split at hp
    · rcases List.mem_cons.mp hp with h | h
      · exact Or.inl h
      · exact Or.inr h
    · split at hp
      · rcases List.mem_cons.mp hp with h | h
        · exact Or.inl h
        · exact Or.inr (List.mem_cons_of_mem q h)
      · rcases List.mem_cons.mp hp with h | h
        · exact Or.inr (by rw [h]; exact List.mem_cons_self q rest)
        · rcases ih p h with h' | h'
          · exact Or.inl h'
          · exact Or.inr (List.mem_cons_of_mem q h')

/-- `mapInsert` preserves the strict-ascending-keys invariant of the map. -/
theorem mapInsert_pairwise {k : List Char} {v : JsonValue}
    {l : List (List Char × JsonValue)}
    (h : List.Pairwise (fun a b => lexLt a.1 b.1 = true) l) :
    List.Pairwise (fun a b => lexLt a.1 b.1 = true) (mapInsert k v l) := by
  induction l with
  | nil => simp [mapInsert]
  | cons q rest ih =>
    rcases List.pairwise_cons.mp h with ⟨hq, hrest⟩
    unfold mapInsert
    split
    · rename_i hlt
      refine List.pairwise_cons.mpr ⟨?_, h⟩
      intro p hp
      rcases List.mem_cons.mp hp with h' | h'
      · rw [h']; exact hlt
      · exact lexLt_trans k q.1 p.1 hlt (hq p h')
    · split
      · rename_i hlt heqk
        refine List.pairwise_cons.mpr ⟨?_, hrest⟩
        intro p hp
        rw [heqk]
        exact hq p hp
      · rename_i hlt hne
        refine List.pairwise_cons.mpr ⟨?_, ih hrest⟩
        intro p hp
        rcases mapInsert_mem p hp with h' | h'
        · rw [h']
          exact lexLt_connex k q.1 (by simpa using hlt) hne
        · exact hq p h'

/-- Inserting a key above every existing key appends at the end — the shape
in which the parser rebuilds a sorted map during a round trip. -/
theorem mapInsert_append {k : List Char} {v : JsonValue} :
    ∀ {l : List (List Char × JsonValue)},
      (∀ p ∈ l, lexLt p.1 k = true) → mapInsert k v l = l ++ [(k, v)] := by
  intro l
  induction l with
  | nil => intro _; rfl
  | cons q rest ih =>
    intro hall
    have hq : lexLt q.1 k = true := hall q (List.mem_cons_self q rest)
    unfold mapInsert
    rw [if_neg, if_neg]
    · rw [ih (fun p hp => hall p (List.mem_cons_of_mem q hp))]
      rfl
    · exact fun e => lexLt_ne hq e.symm
    · rw [lexLt_asymm q.1 k hq]
      exact Bool.noConfusion

/-- Well-formedness of a value tree as the parser produces it from scanned
tokens: object entry lists are strictly ascending in key (the std::map
invariant), keys and string leaves are quote-free, and integer leaves are in
the 32-bit int range. -/
inductive GoodV : JsonValue → Prop where
  | obj : ∀ entries, List.Pairwise (fun a b => lexLt a.1 b.1 = true) entries →
      (∀ p ∈ entries, '\"' ∉ p.1) → (∀ p ∈ entries, GoodV p.2) →
      GoodV (.obj entries)
  | arr : ∀ elems, (∀ x ∈ elems, GoodV x) → GoodV (.arr elems)
  | str : ∀ s, '\"' ∉ s → GoodV (.str s)
  | int : ∀ i : Int, -2147483648 ≤ i → i ≤ 2147483647 → GoodV (.int i)
  | float : ∀ q, GoodV (.float q)
  | bool : ∀ b, GoodV (.bool b)
  | null : GoodV .null

/-- Every object node of the tree keeps its entries in strictly ascending
lexicographic key order — the enumeration order of `std::map`. -/
inductive ObjKeysSorted : JsonValue → Prop where
  | obj : ∀ entries, List.Pairwise (fun a b => lexLt a.1 b.1 = true) entries →
      (∀ p ∈ entries, ObjKeysSorted p.2) → ObjKeysSorted (.obj entries)
  | arr : ∀ elems, (∀ x ∈ elems, ObjKeysSorted x) → ObjKeysSorted (.arr elems)
  | str : ∀ s, ObjKeysSorted (.str s)
  | int : ∀ i, ObjKeysSorted (.int i)
  | float : ∀ q, ObjKeysSorted (.float q)
  | bool : ∀ b, ObjKeysSorted (.bool b)
  | null : ObjKeysSorted .null

/-- A value tree with no float-variant leaf. -/
inductive FloatFree : JsonValue → Prop where
  | obj : ∀ entries, (∀ p ∈ entries, FloatFree p.2) → FloatFree (.obj entries)
  | arr : ∀ elems, (∀ x ∈ elems, FloatFree x) → FloatFree (.arr elems)
  | str : ∀ s, FloatFree (.str s)
  | int : ∀ i, FloatFree (.int i)
  | bool : ∀ b, FloatFree (.bool b)
  | null : FloatFree .null

/-- A well-formed tree has sorted object keys. -/
theorem GoodV.objKeysSorted {v : JsonValue} (h : GoodV v) : ObjKeysSorted v := by
  induction h with
  | obj entries hp hq hg ih => exact ObjKeysSorted.obj entries hp ih
  | arr elems hg ih => exact ObjKeysSorted.arr elems ih
  | str s _ => exact ObjKeysSorted.str s
  | int i _ _ => exact ObjKeysSorted.int i
  | float q => exact ObjKeysSorted.float q
  | bool b => exact ObjKeysSorted.bool b
  | null => exact ObjKeysSorted.null

/-- Inversion of a successful pAdvance. -/
theorem pAdvance_spec {s : PState} {t : Token} {s' : PState}
    (h : pAdvance s = .ok (t, s')) :
    s.tokens.get? s.current = some t ∧ s' = ⟨s.tokens, s.current + 1⟩ := by
  unfold pAdvance at h
  split at h
  · exact absurd h (by simp)
  · rename_i t0 heq
    injection h with h'
    injection h' with h1 h2
    rw [← h1, ← h2]
    exact ⟨heq, rfl⟩

/-- Inversion of a successful pGetCurr. -/
theorem pGetCurr_ok {s : PState} {t : Token} (h : pGetCurr s = .ok t) :
    s.tokens.get? s.current = some t := by
  unfold pGetCurr at h
  split at h
  · exact absurd h (by simp)
  · rename_i t0 heq
    injection h with h'
    rw [← h']
    exact heq

/-- Inversion of a successful consume. -/
theorem consume_spec {tt : TokenType} {e : Err} {s s' : PState}
    (h : consume tt e s = .ok s') :
    (∃ t, s.tokens.get? s.current = some t ∧ t.token_type = tt) ∧
      s' = ⟨s.tokens, s.current + 1⟩ := by
  unfold consume at h
  split at h
  · exact absurd h (by simp)
  · rename_i t0 heq
    split at h
    · rename_i hty
      injection h with h'
      rw [← h']
      exact ⟨⟨t0, pGetCurr_ok heq, hty⟩, rfl⟩
    · exact absurd h (by simp)

/-- Inversion of a successful consume_until_comma. -/
theorem consume_until_comma_spec {exc : TokenType} {s s' : PState}
    (h : consume_until_comma exc s = .ok s') :
    ∃ t, s.tokens.get? s.current = some t ∧
      ((t.token_type = .COMMA ∧ s' = ⟨s.tokens, s.current + 1⟩) ∨
       (t.token_type ≠ .COMMA ∧ t.token_type = exc ∧ s' = s)) := by
  unfold consume_until_comma at h
  split at h
  · exact absurd h (by simp)
  · rename_i t0 heq
    split at h
    · rename_i hty
      injection h with h'
      rw [← h']
      exact ⟨t0, pGetCurr_ok heq, Or.inl ⟨hty, rfl⟩⟩
    · rename_i hty
      split at h
      · exact absurd h (by simp)
      · rename_i t2 heq2
        injection heq2 with he
        subst he
        split at h
        · rename_i hty2
          injection h with h'
          rw [← h']
          exact ⟨t0, pGetCurr_ok heq, Or.inr ⟨hty, hty2, rfl⟩⟩
        · exact absurd h (by simp)

/-- Abbreviation for the sorted-entries property of an accumulator. -/
def AccGood (acc : List (List Char × JsonValue)) : Prop :=
  List.Pairwise (fun a b => lexLt a.1 b.1 = true) acc ∧
    (∀ p ∈ acc, '\"' ∉ p.1) ∧ (∀ p ∈ acc, GoodV p.2)

/-- Master parser invariant: on well-formed tokens, every value the parser
returns is well-formed (sorted objects, quote-free strings, in-range ints),
and the token vector is never replaced.  Proved for all five call shapes
simultaneously by induction on fuel. -/
theorem parseF_good :
    ∀ fuel : Nat,
      (∀ (t : Token) (s : PState), (∀ x ∈ s.tokens, TokGood x) → TokGood t →
        ∀ v s', parseF fuel (.fromToken t) s = .ok (v, s') →
          GoodV v ∧ s'.tokens = s.tokens) ∧
      (∀ s : PState, (∀ x ∈ s.tokens, TokGood x) →
        ∀ v s', parseF fuel .objCall s = .ok (v, s') →
          GoodV v ∧ s'.tokens = s.tokens) ∧
      (∀ (key : Token) (acc : List (List Char × JsonValue)) (s : PState),
        (∀ x ∈ s.tokens, TokGood x) → TokGood key → AccGood acc →
        ∀ v s', parseF fuel (.objLoop key acc) s = .ok (v, s') →
          GoodV v ∧ s'.tokens = s.tokens) ∧
      (∀ s : PState, (∀ x ∈ s.tokens, TokGood x) →
        ∀ v s', parseF fuel .arrCall s = .ok (v, s') →
          GoodV v ∧ s'.tokens = s.tokens) ∧
      (∀ (t : Token) (acc : List JsonValue) (s : PState),
        (∀ x ∈ s.tokens, TokGood x) → TokGood t → (∀ x ∈ acc, GoodV x) →
        ∀ v s', parseF fuel (.arrLoop t acc) s = .ok (v, s') →
          GoodV v ∧ s'.tokens = s.tokens) := by
  intro fuel
  induction fuel with
  | zero =>
    refine ⟨?_, ?_, ?_, ?_, ?_⟩ <;> intros <;>
      exact absurd (by assumption : parseF 0 _ _ = _) (by simp [parseF])
  | succ fuel ih =>
    obtain ⟨ihFT, ihOC, ihOL, ihAC, ihAL⟩ := ih
    refine ⟨?_, ?_, ?_, ?_, ?_⟩
    · -- fromToken
      intro t s htoks htok v s' h
      unfold parseF at h
      split at h
      · -- STRING
        split at h
        · rename_i str heq
          injection h with h'
          injection h' with h1 h2
          rw [← h1, ← h2]
          cases t with
          | mk ty val =>
            rename_i hty
            simp only at hty heq
            subst hty
            subst heq
            exact ⟨GoodV.str str htok, rfl⟩
        all_goals exact absurd h (by simp)
      · -- NUMBER
        split at h
        · rename_i i heq
          injection h with h'
          injection h' with h1 h2
          rw [← h1, ← h2]
          cases t with
          | mk ty val =>
            rename_i hty
            simp only at hty heq
            subst hty
            subst heq
            exact ⟨GoodV.int i htok.1 htok.2, rfl⟩
        · rename_i q heq
          injection h with h'
          injection h' with h1 h2
          rw [← h1, ← h2]
          exact ⟨GoodV.float q, rfl⟩
        all_goals exact absurd h (by simp)
      · -- BOOLEAN
        split at h
        · rename_i b heq
          injection h with h'
          injection h' with h1 h2
          rw [← h1, ← h2]
          exact ⟨GoodV.bool b, rfl⟩
        all_goals exact absurd h (by simp)
      · -- NULL
        injection h with h'
        injection h' with h1 h2
        rw [← h1, ← h2]
        exact ⟨GoodV.null, rfl⟩
      · -- LEFT_CURLY
        exact ihOC s htoks v s' h
      · -- LEFT_SQUARE
        exact ihAC s htoks v s' h
      · -- default
        exact absurd h (by simp)
    · -- objCall
      intro s htoks v s' h
      unfold parseF at h
      split at h
      · exact absurd h (by simp)
      · rename_i key s1 heq
        obtain ⟨hget, hs1⟩ := pAdvance_spec heq
        have hkey : TokGood key := htoks key (List.get?_mem hget)
        have htoks1 : ∀ x ∈ s1.tokens, TokGood x := by rw [hs1]; exact htoks
        have := ihOL key [] s1 htoks1 hkey ⟨List.Pairwise.nil, by simp, by simp⟩ v s' h
        rw [hs1] at this
        exact this
    · -- objLoop
      intro key acc s htoks hkey hacc v s' h
      unfold parseF at h
      split_ifs at h with hrc heof hstr
      · injection h with h'
        injection h' with h1 h2
        rw [← h1, ← h2]
        exact ⟨GoodV.obj acc hacc.1 hacc.2.1 hacc.2.2, rfl⟩
      · -- STRING key
        split at h
        · exact absurd h (by simp)
        · rename_i s2 heqc
          obtain ⟨⟨tc, hgetc, htyc⟩, hs2⟩ := consume_spec heqc
          split at h
          · exact absurd h (by simp)
          · rename_i vt s3 heqa
            obtain ⟨hgetv, hs3⟩ := pAdvance_spec heqa
            have hvt : TokGood vt := by
              rw [hs2] at hgetv
              exact htoks vt (List.get?_mem hgetv)
            split at h
            · exact absurd h (by simp)
            · rename_i v0 s4 heqv
              have htoks3 : ∀ x ∈ s3.tokens, TokGood x := by
                rw [hs3, hs2]
                exact htoks
              obtain ⟨hv0, hs4⟩ := ihFT vt s3 htoks3 hvt v0 s4 heqv
              split at h
              · rename_i k heqk
                split at h
                · exact absurd h (by simp)
                · rename_i s5 heq5
                  obtain ⟨t5, hget5, hc5⟩ := consume_until_comma_spec heq5
                  have hs5 : s5.tokens = s.tokens := by
                    rcases hc5 with ⟨-, hrw⟩ | ⟨-, -, hrw⟩ <;>
                      rw [hrw] <;> rw [hs4, hs3, hs2]
                  split at h
                  · exact absurd h (by simp)
                  · rename_i key' s6 heq6
                    obtain ⟨hget6, hs6⟩ := pAdvance_spec heq6
                    have hkey' : TokGood key' := by
                      rw [hs5] at hget6
                      exact htoks key' (List.get?_mem hget6)
                    have hknoq : '\"' ∉ k := by
                      cases key with
                      | mk ty val =>
                        simp only at hstr heqk
                        subst hstr
                        subst heqk
                        exact hkey
                    have hacc' : AccGood (mapInsert k v0 acc) := by
                      refine ⟨mapInsert_pairwise hacc.1, ?_, ?_⟩
                      · intro p hp
                        rcases mapInsert_mem p hp with h' | h'
                        · rw [h']; exact hknoq
                        · exact hacc.2.1 p h'
                      · intro p hp
                        rcases mapInsert_mem p hp with h' | h'
                        · rw [h']; exact hv0
                        · exact hacc.2.2 p h'
                    have htoks6 : ∀ x ∈ s6.tokens, TokGood x := by
                      rw [hs6, hs5]
                      exact htoks
                    have := ihOL key' (mapInsert k v0 acc) s6 htoks6 hkey' hacc' v s' h
                    rw [hs6, hs5] at this
                    exact this
              all_goals exact absurd h (by simp)
    · -- arrCall
      intro s htoks v s' h
      unfold parseF at h
      split at h
      · exact absurd h (by simp)
      · rename_i t s1 heq
        obtain ⟨hget, hs1⟩ := pAdvance_spec heq
        have ht : TokGood t := htoks t (List.get?_mem hget)
        have htoks1 : ∀ x ∈ s1.tokens, TokGood x := by rw [hs1]; exact htoks
        have := ihAL t [] s1 htoks1 ht (by simp) v s' h
        rw [hs1] at this
        exact this
    · -- arrLoop
      intro t acc s htoks ht haccg v s' h
      unfold parseF at h
      split_ifs at h with hrs heof
      · injection h with h'
        injection h' with h1 h2
        rw [← h1, ← h2]
        exact ⟨GoodV.arr acc haccg, rfl⟩
      · split at h
        · exact absurd h (by simp)
        · rename_i v0 s1 heqv
          obtain ⟨hv0, hs1⟩ := ihFT t s htoks ht v0 s1 heqv
          split at h
          · exact absurd h (by simp)
          · rename_i s2 heq2
            obtain ⟨t2, hget2, hc2⟩ := consume_until_comma_spec heq2
            have hs2 : s2.tokens = s.tokens := by
              rcases hc2 with ⟨-, hrw⟩ | ⟨-, -, hrw⟩ <;> rw [hrw] <;> rw [hs1]
            split at h
            · exact absurd h (by simp)
            · rename_i t3 s3 heq3
              obtain ⟨hget3, hs3⟩ := pAdvance_spec heq3
              have ht3 : TokGood t3 := by
                rw [hs2] at hget3
                exact htoks t3 (List.get?_mem hget3)
              have haccg' : ∀ x ∈ acc ++ [v0], GoodV x := by
                intro x hx
                rcases List.mem_append.mp hx with h' | h'
                · exact haccg x h'
                · rw [List.mem_singleton.mp h']; exact hv0
              have htoks3 : ∀ x ∈ s3.tokens, TokGood x := by
                rw [hs3, hs2]
                exact htoks
              have := ihAL t3 (acc ++ [v0]) s3 htoks3 ht3 haccg' v s' h
              rw [hs3, hs2] at this
              exact this

/-- Every token scan returns is well-formed. -/
theorem scan_tokens_good {s : List Char} {ts : List Token}
    (h : scan s = .ok ts) : ∀ t ∈ ts, TokGood t := by
  unfold scan at h
  split at h
  · exact absurd h (by simp)
  · rename_i ts1 heq
    injection h with h1
    rw [← h1]
    intro t ht
    rcases List.mem_append.mp ht with hm | hm
    · exact (scanLoop_tokens_ok _ _ _ _ heq t hm).2
    · rw [List.mem_singleton.mp hm]
      trivial

/-- Every value produced by the end-to-end parse is well-formed. -/
theorem parse_good {input : List Char} {v : JsonValue}
    (h : parse input = .ok v) : GoodV v := by
  unfold parse at h
  split at h
  · exact absurd h (by simp)
  · rename_i ts heqs
    have htoks := scan_tokens_good heqs
    unfold Parser.parse at h
    split at h
    · exact absurd h (by simp)
    · rename_i t s1 heqa
      obtain ⟨hget, hs1⟩ := pAdvance_spec heqa
      split at h
      · exact absurd h (by simp)
      · rename_i v0 s' heqp
        injection h with h1
        rw [← h1]
        have ht : TokGood t := htoks t (List.get?_mem hget)
        have htoks1 : ∀ x ∈ s1.tokens, TokGood x := by
          rw [hs1]; exact htoks
        exact ((parseF_good _).1 t s1 htoks1 ht v0 s' heqp).1

/-- Claim C1, amended: every object node of every parse result keeps its
entries in strictly ascending lexicographic key order — the iteration order
of `std::map` — independent of the order the keys appeared in the input. -/
theorem c1_sorted_keys :
    ∀ (input : List Char) (v : JsonValue),
      parse input = .ok v → ObjKeysSorted v :=
  fun _ _ h => (parse_good h).objKeysSorted

/-- Claim C1 witness: the amended theorem applied to the example input of the
claim, whose parse result has its entries in the order age, car, name. -/
theorem c1_witness :
    ObjKeysSorted (.obj [("age".data, .int 30), ("car".data, .null),
      ("name".data, .str "John".data)]) :=
  c1_sorted_keys "\x7b\"name\":\"John\",\"age\":30,\"car\":null\x7d".data _ rfl

/-- Forward evaluation of pAdvance at a known index. -/
theorem pAdvance_of_get {s : PState} {t : Token}
    (hget : s.tokens.get? s.current = some t) :
    pAdvance s = .ok (t, ⟨s.tokens, s.current + 1⟩) := by
  unfold pAdvance
  rw [hget]

/-- Forward evaluation of pGetCurr at a known index. -/
theorem pGetCurr_of_get {s : PState} {t : Token}
    (hget : s.tokens.get? s.current = some t) : pGetCurr s = .ok t := by
  unfold pGetCurr
  rw [hget]

/-- Forward evaluation of consume at a known index. -/
theorem consume_of_get {tt : TokenType} {e : Err} {s : PState} {t : Token}
    (hget : s.tokens.get? s.current = some t) :
    consume tt e s =
      if t.token_type = tt then .ok ⟨s.tokens, s.current + 1⟩ else .error e := by
  unfold consume
  rw [pGetCurr_of_get hget]

/-- Forward evaluation of consume_until_comma at a known index. -/
theorem cuc_of_get {exc : TokenType} {s : PState} {t : Token}
    (hget : s.tokens.get? s.current = some t) :
    consume_until_comma exc s =
      if t.token_type = .COMMA then .ok ⟨s.tokens, s.current + 1⟩
      else if t.token_type = exc then .ok s
      else .error .MissingComma := by
  unfold consume_until_comma
  rw [pGetCurr_of_get hget]

/-- A token sequence shaped as the Scanner's output: nonempty, with an EOF
token exactly at the last position. -/
def EndsEOF (ts : List Token) : Prop :=
  ts ≠ [] ∧ ∀ i t, ts.get? i = some t →
    (t.token_type = .EOF_TOKEN ↔ i = ts.length - 1)

/-- In an EOF-terminated sequence, any index holding a non-EOF token has its
successor still within the EOF position. -/
theorem endsEOF_lt {ts : List Token} (h : EndsEOF ts) {i : Nat} {t : Token}
    (hg : ts.get? i = some t) (ht : t.token_type ≠ .EOF_TOKEN) :
    i + 1 ≤ ts.length - 1 := by
  have hlt : i < ts.length := by
    by_contra hc
    push_neg at hc
    rw [List.get?_eq_none.mpr hc] at hg
    cases hg
  have hne : i ≠ ts.length - 1 := fun e => ht ((h.2 i t hg).mpr e)
  omega

/-- Any index up to the EOF position is readable. -/
theorem endsEOF_get {ts : List Token} (h : EndsEOF ts) {i : Nat}
    (hi : i ≤ ts.length - 1) : ∃ t, ts.get? i = some t := by
  have hlen : 1 ≤ ts.length := by
    cases ts with
    | nil => exact absurd rfl h.1
    | cons a l => simp
  cases hg : ts.get? i with
  | none =>
    have := List.get?_eq_none.mp hg
    omega
  | some t => exact ⟨t, rfl⟩

/-- Every token access the parser performs stays in bounds when the token
sequence ends with exactly one EOF token: the result of any parser call is
never the out-of-bounds marker, and a successful call leaves the cursor at or
before the EOF position.  Proved for all call shapes by induction on fuel. -/
theorem parseF_no_oob :
    ∀ (fuel : Nat) (ts : List Token), EndsEOF ts →
      (∀ (t : Token) (s : PState), s.tokens = ts →
        (t.token_type ≠ .EOF_TOKEN → s.current ≤ ts.length - 1) →
        parseF fuel (.fromToken t) s ≠ .error .OutOfBounds ∧
        (∀ v s', parseF fuel (.fromToken t) s = .ok (v, s') →
          s'.tokens = ts ∧ s'.current ≤ ts.length - 1)) ∧
      (∀ s : PState, s.tokens = ts → s.current ≤ ts.length - 1 →
        parseF fuel .objCall s ≠ .error .OutOfBounds ∧
        (∀ v s', parseF fuel .objCall s = .ok (v, s') →
          s'.tokens = ts ∧ s'.current ≤ ts.length - 1)) ∧
      (∀ (key : Token) (acc : List (List Char × JsonValue)) (s : PState),
        s.tokens = ts →
        (key.token_type ≠ .EOF_TOKEN → s.current ≤ ts.length - 1) →
        parseF fuel (.objLoop key acc) s ≠ .error .OutOfBounds ∧
        (∀ v s', parseF fuel (.objLoop key acc) s = .ok (v, s') →
          s'.tokens = ts ∧ s'.current ≤ ts.length - 1)) ∧
      (∀ s : PState, s.tokens = ts → s.current ≤ ts.length - 1 →
        parseF fuel .arrCall s ≠ .error .OutOfBounds ∧
        (∀ v s', parseF fuel .arrCall s = .ok (v, s') →
          s'.tokens = ts ∧ s'.current ≤ ts.length - 1)) ∧
      (∀ (t : Token) (acc : List JsonValue) (s : PState), s.tokens = ts →
        (t.token_type ≠ .EOF_TOKEN → s.current ≤ ts.length - 1) →
        parseF fuel (.arrLoop t acc) s ≠ .error .OutOfBounds ∧
        (∀ v s', parseF fuel (.arrLoop t acc) s = .ok (v, s') →
          s'.tokens = ts ∧ s'.current ≤ ts.length - 1)) := by
  intro fuel
  induction fuel with
  | zero =>
    intro ts hE
    refine ⟨?_, ?_, ?_, ?_, ?_⟩ <;> intros <;>
      exact ⟨by simp [parseF], fun v s' h => absurd h (by simp [parseF])⟩
  | succ fuel ih =>
    intro ts hE
    obtain ⟨ihFT, ihOC, ihOL, ihAC, ihAL⟩ := ih ts hE
    refine ⟨?_, ?_, ?_, ?_, ?_⟩
    · -- fromToken
      intro t s hts hbound
      cases t with
      | mk ty val =>
        cases ty
        case STRING =>
          cases val
          case str str =>
            have hstep : parseF (fuel + 1)
                (.fromToken ⟨.STRING, .str str⟩) s = .ok (.str str, s) := rfl
            refine ⟨by rw [hstep]; simp, ?_⟩
            intro v s' h
            rw [hstep] at h
            injection h with h'
            injection h' with h1 h2
            rw [← h2]
            exact ⟨hts, hbound (by simp)⟩
          all_goals
            exact ⟨by simp [parseF], fun v s' h => absurd h (by simp [parseF])⟩
        case NUMBER =>
          cases val
          case int i =>
            have hstep : parseF (fuel + 1)
                (.fromToken ⟨.NUMBER, .int i⟩) s = .ok (.int i, s) := rfl
            refine ⟨by rw [hstep]; simp, ?_⟩
            intro v s' h
            rw [hstep] at h
            injection h with h'
            injection h' with h1 h2
            rw [← h2]
            exact ⟨hts, hbound (by simp)⟩
          case float q =>
            have hstep : parseF (fuel + 1)
                (.fromToken ⟨.NUMBER, .float q⟩) s = .ok (.float q, s) := rfl
            refine ⟨by rw [hstep]; simp, ?_⟩
            intro v s' h
            rw [hstep] at h
            injection h with h'
            injection h' with h1 h2
            rw [← h2]
            exact ⟨hts, hbound (by simp)⟩
          all_goals
            exact ⟨by simp [parseF], fun v s' h => absurd h (by simp [parseF])⟩
        case BOOLEAN =>
          cases val
          case bool b =>
            have hstep : parseF (fuel + 1)
                (.fromToken ⟨.BOOLEAN, .bool b⟩) s = .ok (.bool b, s) := rfl
            refine ⟨by rw [hstep]; simp, ?_⟩
            intro v s' h
            rw [hstep] at h
            injection h with h'
            injection h' with h1 h2
            rw [← h2]
            exact ⟨hts, hbound (by simp)⟩
          all_goals
            exact ⟨by simp [parseF], fun v s' h => absurd h (by simp [parseF])⟩
        case NULL_VALUE =>
          have hstep : parseF (fuel + 1)
              (.fromToken ⟨.NULL_VALUE, val⟩) s = .ok (.null, s) := rfl
          refine ⟨by rw [hstep]; simp, ?_⟩
          intro v s' h
          rw [hstep] at h
          injection h with h'
          injection h' with h1 h2
          rw [← h2]
          exact ⟨hts, hbound (by simp)⟩
        case LEFT_CURLY =>
          have hb : s.current ≤ ts.length - 1 := hbound (by simp)
          have hstep : parseF (fuel + 1) (.fromToken ⟨.LEFT_CURLY, val⟩) s =
              parseF fuel .objCall s := rfl
          rw [hstep]
          exact ihOC s hts hb
        case LEFT_SQUARE =>
          have hb : s.current ≤ ts.length - 1 := hbound (by simp)
          have hstep : parseF (fuel + 1) (.fromToken ⟨.LEFT_SQUARE, val⟩) s =
              parseF fuel .arrCall s := rfl
          rw [hstep]
          exact ihAC s hts hb
        all_goals
          exact ⟨by simp [parseF], fun v s' h => absurd h (by simp [parseF])⟩
    · -- objCall
      intro s hts hb
      obtain ⟨key, hget⟩ := endsEOF_get hE hb
      have hget' : s.tokens.get? s.current = some key := by rw [hts]; exact hget
      have hstep : parseF (fuel + 1) .objCall s =
          parseF fuel (.objLoop key []) ⟨s.tokens, s.current + 1⟩ := by
        simp [parseF, pAdvance_of_get hget']
      rw [hstep]
      refine ihOL key [] ⟨s.tokens, s.current + 1⟩ hts ?_
      intro hne
      simpa using endsEOF_lt hE hget hne
    · -- objLoop
      intro key acc s hts hbound
      by_cases hrc : key.token_type = .RIGHT_CURLY
      · have hstep : parseF (fuel + 1) (.objLoop key acc) s = .ok (.obj acc, s) := by
          simp [parseF, hrc]
        refine ⟨by simp [hstep], ?_⟩
        intro v s' h
        rw [hstep] at h
        injection h with h'
        injection h' with h1 h2
        rw [← h2]
        exact ⟨hts, hbound (by rw [hrc]; decide)⟩
      by_cases heof : key.token_type = .EOF_TOKEN
      · have hstep : parseF (fuel + 1) (.objLoop key acc) s =
            .error .UnterminatedObject := by simp [parseF, hrc, heof]
        exact ⟨by simp [hstep], fun v s' h => absurd (hstep ▸ h) (by simp)⟩
      by_cases hstr : key.token_type = .STRING
      all_goals try
        (have hstep : parseF (fuel + 1) (.objLoop key acc) s =
            .error .ExpectedKey := by simp [parseF, hrc, heof, hstr]
         exact ⟨by simp [hstep], fun v s' h => absurd (hstep ▸ h) (by simp)⟩)
      -- STRING key
      have hb : s.current ≤ ts.length - 1 := hbound (by rw [hstr]; decide)
      obtain ⟨tc, hgetc⟩ := endsEOF_get hE hb
      have hgetc' : s.tokens.get? s.current = some tc := by rw [hts]; exact hgetc
      by_cases htc : tc.token_type = .COLON
      · have hb2 : s.current + 1 ≤ ts.length - 1 :=
          endsEOF_lt hE hgetc (by rw [htc]; decide)
        obtain ⟨vt, hgetv⟩ := endsEOF_get hE hb2
        have hgetv' : (⟨s.tokens, s.current + 1⟩ : PState).tokens.get?
            (⟨s.tokens, s.current + 1⟩ : PState).current = some vt := by
          simpa [hts] using hgetv
        have hbv : vt.token_type ≠ .EOF_TOKEN →
            (⟨s.tokens, s.current + 2⟩ : PState).current ≤ ts.length - 1 := by
          intro hv
          simpa using endsEOF_lt hE hgetv hv
        rcases hres : parseF fuel (.fromToken vt) ⟨s.tokens, s.current + 2⟩
          with e | ⟨v0, s4⟩
        · have hne : e ≠ .OutOfBounds := by
            intro he
            subst he
            exact (ihFT vt ⟨s.tokens, s.current + 2⟩ hts hbv).1 hres
          have hstep : parseF (fuel + 1) (.objLoop key acc) s = .error e := by
            simp [parseF, hrc, heof, hstr, consume_of_get hgetc', htc,
              pAdvance_of_get hgetv', hres]
          refine ⟨?_, ?_⟩
          · intro hcon
            rw [hstep] at hcon
            injection hcon with he
            exact hne he
          · intro v s' h
            rw [hstep] at h
            exact absurd h (by simp)
        · obtain ⟨hs4t, hs4c⟩ := (ihFT vt ⟨s.tokens, s.current + 2⟩ hts hbv).2
            v0 s4 hres
          cases hkv : key.value with
          | str k =>
            obtain ⟨t5, hget5⟩ := endsEOF_get hE hs4c
            have hget5' : s4.tokens.get? s4.current = some t5 := by
              rw [hs4t]; exact hget5
            by_cases ht5 : t5.token_type = .COMMA
            · have hb5 : s4.current + 1 ≤ ts.length - 1 :=
                endsEOF_lt hE hget5 (by rw [ht5]; decide)
              obtain ⟨key', hget6⟩ := endsEOF_get hE hb5
              have hget6' : (⟨s4.tokens, s4.current + 1⟩ : PState).tokens.get?
                  (⟨s4.tokens, s4.current + 1⟩ : PState).current = some key' := by
                simpa [hs4t] using hget6
              have hstep : parseF (fuel + 1) (.objLoop key acc) s =
                  parseF fuel (.objLoop key' (mapInsert k v0 acc))
                    ⟨s4.tokens, s4.current + 2⟩ := by
                simp [parseF, hrc, heof, hstr, consume_of_get hgetc', htc,
                  pAdvance_of_get hgetv', hres, hkv, cuc_of_get hget5', ht5,
                  pAdvance_of_get hget6']
              rw [hstep]
              refine ihOL key' (mapInsert k v0 acc) ⟨s4.tokens, s4.current + 2⟩
                (by rw [hs4t]) ?_
              intro hne
              simpa using endsEOF_lt hE hget6 hne
            · by_cases ht5' : t5.token_type = .RIGHT_CURLY
              · have hstep : parseF (fuel + 1) (.objLoop key acc) s =
                    parseF fuel (.objLoop t5 (mapInsert k v0 acc))
                      ⟨s4.tokens, s4.current + 1⟩ := by
                  simp [parseF, hrc, heof, hstr, consume_of_get hgetc', htc,
                    pAdvance_of_get hgetv', hres, hkv, cuc_of_get hget5', ht5,
                    ht5', pAdvance_of_get hget5']
                rw [hstep]
                refine ihOL t5 (mapInsert k v0 acc) ⟨s4.tokens, s4.current + 1⟩
                  (by rw [hs4t]) ?_
                intro hne
                simpa using endsEOF_lt hE hget5 hne
              · have hstep : parseF (fuel + 1) (.objLoop key acc) s =
                    .error .MissingComma := by
                  simp [parseF, hrc, heof, hstr, consume_of_get hgetc', htc,
                    pAdvance_of_get hgetv', hres, hkv, cuc_of_get hget5', ht5,
                    ht5']
                exact ⟨by simp [hstep], fun v s' h => absurd (hstep ▸ h) (by simp)⟩
          | mono =>
            have hstep : parseF (fuel + 1) (.objLoop key acc) s =
                .error .BadVariantAccess := by
              simp [parseF, hrc, heof, hstr, consume_of_get hgetc', htc,
                pAdvance_of_get hgetv', hres, hkv]
            exact ⟨by simp [hstep], fun v s' h => absurd (hstep ▸ h) (by simp)⟩
          | int i =>
            have hstep : parseF (fuel + 1) (.objLoop key acc) s =
                .error .BadVariantAccess := by
              simp [parseF, hrc, heof, hstr, consume_of_get hgetc', htc,
                pAdvance_of_get hgetv', hres, hkv]
            exact ⟨by simp [hstep], fun v s' h => absurd (hstep ▸ h) (by simp)⟩
          | float q =>
            have hstep : parseF (fuel + 1) (.objLoop key acc) s =
                .error .BadVariantAccess := by
              simp [parseF, hrc, heof, hstr, consume_of_get hgetc', htc,
                pAdvance_of_get hgetv', hres, hkv]
            exact ⟨by simp [hstep], fun v s' h => absurd (hstep ▸ h) (by simp)⟩
          | bool b =>
            have hstep : parseF (fuel + 1) (.objLoop key acc) s =
                .error .BadVariantAccess := by
              simp [parseF, hrc, heof, hstr, consume_of_get hgetc', htc,
                pAdvance_of_get hgetv', hres, hkv]
            exact ⟨by simp [hstep], fun v s' h => absurd (hstep ▸ h) (by simp)⟩
      · have hstep : parseF (fuel + 1) (.objLoop key acc) s =
            .error .ExpectedColon := by
          simp [parseF, hrc, heof, hstr, consume_of_get hgetc', htc]
        exact ⟨by simp [hstep], fun v s' h => absurd (hstep ▸ h) (by simp)⟩
    · -- arrCall
      intro s hts hb
      obtain ⟨t, hget⟩ := endsEOF_get hE hb
      have hget' : s.tokens.get? s.current = some t := by rw [hts]; exact hget
      have hstep : parseF (fuel + 1) .arrCall s =
          parseF fuel (.arrLoop t []) ⟨s.tokens, s.current + 1⟩ := by
        simp [parseF, pAdvance_of_get hget']
      rw [hstep]
      refine ihAL t [] ⟨s.tokens, s.current + 1⟩ hts ?_
      intro hne
      simpa using endsEOF_lt hE hget hne
    · -- arrLoop
      intro t acc s hts hbound
      by_cases hrs : t.token_type = .RIGHT_SQUARE
      · have hstep : parseF (fuel + 1) (.arrLoop t acc) s = .ok (.arr acc, s) := by
          simp [parseF, hrs]
        refine ⟨by simp [hstep], ?_⟩
        intro v s' h
        rw [hstep] at h
        injection h with h'
        injection h' with h1 h2
        rw [← h2]
        exact ⟨hts, hbound (by rw [hrs]; decide)⟩
      by_cases heof : t.token_type = .EOF_TOKEN
      · have hstep : parseF (fuel + 1) (.arrLoop t acc) s =
            .error .UnterminatedArray := by simp [parseF, hrs, heof]
        exact ⟨by simp [hstep], fun v s' h => absurd (hstep ▸ h) (by simp)⟩
      rcases hres : parseF fuel (.fromToken t) s with e | ⟨v0, s1⟩
      · have hne : e ≠ .OutOfBounds := by
          intro he
          subst he
          exact (ihFT t s hts hbound).1 hres
        have hstep : parseF (fuel + 1) (.arrLoop t acc) s = .error e := by
          simp [parseF, hrs, heof, hres]
        refine ⟨?_, ?_⟩
        · intro hcon
          rw [hstep] at hcon
          injection hcon with he
          exact hne he
        · intro v s' h
          rw [hstep] at h
          exact absurd h (by simp)
      · obtain ⟨hs1t, hs1c⟩ := (ihFT t s hts hbound).2 v0 s1 hres
        obtain ⟨t2, hget2⟩ := endsEOF_get hE hs1c
        have hget2' : s1.tokens.get? s1.current = some t2 := by
          rw [hs1t]; exact hget2
        by_cases ht2 : t2.token_type = .COMMA
        · have hb2 : s1.current + 1 ≤ ts.length - 1 :=
            endsEOF_lt hE hget2 (by rw [ht2]; decide)
          obtain ⟨t3, hget3⟩ := endsEOF_get hE hb2
          have hget3' : (⟨s1.tokens, s1.current + 1⟩ : PState).tokens.get?
              (⟨s1.tokens, s1.current + 1⟩ : PState).current = some t3 := by
            simpa [hs1t] using hget3
          have hstep : parseF (fuel + 1) (.arrLoop t acc) s =
              parseF fuel (.arrLoop t3 (acc ++ [v0]))
                ⟨s1.tokens, s1.current + 2⟩ := by
            simp [parseF, hrs, heof, hres, cuc_of_get hget2', ht2,
              pAdvance_of_get hget3']
          rw [hstep]
          refine ihAL t3 (acc ++ [v0]) ⟨s1.tokens, s1.current + 2⟩
            (by rw [hs1t]) ?_
          intro hne
          simpa using endsEOF_lt hE hget3 hne
        · by_cases ht2' : t2.token_type = .RIGHT_SQUARE
          · have hstep : parseF (fuel + 1) (.arrLoop t acc) s =
                parseF fuel (.arrLoop t2 (acc ++ [v0]))
                  ⟨s1.tokens, s1.current + 1⟩ := by
              simp [parseF, hrs, heof, hres, cuc_of_get hget2', ht2, ht2',
                pAdvance_of_get hget2']
            rw [hstep]
            refine ihAL t2 (acc ++ [v0]) ⟨s1.tokens, s1.current + 1⟩
              (by rw [hs1t]) ?_
            intro hne
            simpa using endsEOF_lt hE hget2 hne
          · have hstep : parseF (fuel + 1) (.arrLoop t acc) s =
                .error .MissingComma := by
              simp [parseF, hrs, heof, hres, cuc_of_get hget2', ht2, ht2']
            exact ⟨by simp [hstep], fun v s' h => absurd (hstep ▸ h) (by simp)⟩

/-- C10: for every token sequence whose last token is the single EOF token (the
shape the Scanner produces), every token access the Parser performs stays
within bounds — the run never hits the out-of-bounds marker that models
`tokens[current]` reading past the vector's end. -/
theorem c10_parser_in_bounds (ts : List Token) (hE : EndsEOF ts) :
    Parser.parse ts ≠ .error .OutOfBounds := by
  obtain ⟨t0, hget0⟩ := endsEOF_get hE (Nat.zero_le _)
  have hget0' : (⟨ts, 0⟩ : PState).tokens.get? (⟨ts, 0⟩ : PState).current =
      some t0 := hget0
  have hbound : t0.token_type ≠ .EOF_TOKEN →
      (⟨ts, 1⟩ : PState).current ≤ ts.length - 1 := by
    intro hne
    simpa using endsEOF_lt hE hget0 hne
  have hclause := ((parseF_no_oob (3 * ts.length + 10) ts hE).1 t0
    ⟨ts, 1⟩ rfl hbound).1
  rcases hres : parseF (3 * ts.length + 10) (.fromToken t0) ⟨ts, 1⟩
    with e | ⟨v, s'⟩
  · have hne : e ≠ .OutOfBounds := fun he => hclause (he ▸ hres)
    have hP : Parser.parse ts = .error e := by
      simp [Parser.parse, pAdvance_of_get hget0', hres]
    intro hcon
    rw [hP] at hcon
    injection hcon with he
    exact hne he
  · have hP : Parser.parse ts = .ok v := by
      simp [Parser.parse, pAdvance_of_get hget0', hres]
    intro hcon
    rw [hP] at hcon
    exact Except.noConfusion hcon

theorem c10_witness :
    EndsEOF [⟨.NUMBER, .int 1⟩, ⟨.EOF_TOKEN, .mono⟩] ∧
    Parser.parse [⟨.NUMBER, .int 1⟩, ⟨.EOF_TOKEN, .mono⟩] ≠
      .error .OutOfBounds := by
  have hE : EndsEOF [⟨.NUMBER, .int 1⟩, ⟨.EOF_TOKEN, .mono⟩] := by
    refine ⟨by simp, ?_⟩
    intro i t hg
    match i with
    | 0 =>
      injection hg with h
      rw [← h]
      decide
    | 1 =>
      injection hg with h
      rw [← h]
      decide
    | Nat.succ (Nat.succ i) => exact absurd hg (by simp)
  exact ⟨hE, c10_parser_in_bounds _ hE⟩

/- Round-trip development (claim C5): the scanner on rendered text. -/

/-- One fuel step is irrelevant once the fuel exceeds the input length
(every `scanToken` consumes at least one character). -/
theorem scanLoop_fuel_succ :
    ∀ (fuel : Nat) (s : List Char) (line : Nat), s.length < fuel →
      scanLoop (fuel + 1) s line = scanLoop fuel s line := by
  intro fuel
  induction fuel with
  | zero => intro s line h; exact absurd h (Nat.not_lt_zero _)
  | succ fuel ih =>
    intro s line h
    cases s with
    | nil => simp [scanLoop]
    | cons c rest =>
      simp only [List.length_cons] at h
      cases hse : scanToken c rest line with
      | error e => simp [scanLoop, hse]
      | ok r =>
        obtain ⟨ts, rest', line'⟩ := r
        have hlen : rest'.length < fuel :=
          Nat.lt_of_le_of_lt (scanToken_len hse) (by omega)
        simp only [scanLoop, hse]
        rw [ih rest' line' hlen]

/-- Adding any surplus fuel beyond the input length changes nothing. -/
theorem scanLoop_fuel_ge :
    ∀ (k fuel : Nat) (s : List Char) (line : Nat), s.length < fuel →
      scanLoop (fuel + k) s line = scanLoop fuel s line := by
  intro k
  induction k with
  | zero => intro f s l _; rfl
  | succ k ih =>
    intro f s l h
    have h1 : scanLoop ((f + k) + 1) s l = scanLoop (f + k) s l :=
      scanLoop_fuel_succ (f + k) s l (by omega)
    calc scanLoop (f + (k + 1)) s l = scanLoop ((f + k) + 1) s l := rfl
      _ = scanLoop (f + k) s l := h1
      _ = scanLoop f s l := ih f s l h

/-- The scanner loop at its canonical (always sufficient) fuel. -/
def scanT (s : List Char) (line : Nat) : Except Err (List Token) :=
  scanLoop (s.length + 1) s line

/-- Any sufficient fuel computes the canonical scan. -/
theorem scanT_of_fuel {s : List Char} {line fuel : Nat} (h : s.length < fuel) :
    scanLoop fuel s line = scanT s line := by
  have he : fuel = (s.length + 1) + (fuel - s.length - 1) := by omega
  rw [he, scanLoop_fuel_ge (fuel - s.length - 1) (s.length + 1) s line
    (by omega)]
  rfl

/-- The tokens and remaining input of a `scanToken` step do not depend on the
line counter; only the returned line counter does. -/
theorem scanToken_line_shift {c : Char} {rest : List Char} {line : Nat} :
    ∀ line',
      (∀ e, scanToken c rest line = .error e → scanToken c rest line' = .error e) ∧
      (∀ ts r l2, scanToken c rest line = .ok (ts, r, l2) →
        ∃ l2', scanToken c rest line' = .ok (ts, r, l2')) := by
  intro line'
  by_cases h1 : c = '\x7b'
  · subst h1
    constructor
    · intro e h
      cases h
    · intro ts r l2 h
      obtain ⟨ha, hb⟩ := ok_triple_inj h
      refine ⟨line', ?_⟩
      rw [← ha, ← hb]
      exact rfl
  by_cases h2 : c = '\x7d'
  · subst h2
    constructor
    · intro e h
      cases h
    · intro ts r l2 h
      obtain ⟨ha, hb⟩ := ok_triple_inj h
      refine ⟨line', ?_⟩
      rw [← ha, ← hb]
      exact rfl
  by_cases h3 : c = '['
  · subst h3
    constructor
    · intro e h
      cases h
    · intro ts r l2 h
      obtain ⟨ha, hb⟩ := ok_triple_inj h
      refine ⟨line', ?_⟩
      rw [← ha, ← hb]
      exact rfl
  by_cases h4 : c = ']'
  · subst h4
    constructor
    · intro e h
      cases h
    · intro ts r l2 h
      obtain ⟨ha, hb⟩ := ok_triple_inj h
      refine ⟨line', ?_⟩
      rw [← ha, ← hb]
      exact rfl
  by_cases h5 : c = ','
  · subst h5
    constructor
    · intro e h
      cases h
    · intro ts r l2 h
      obtain ⟨ha, hb⟩ := ok_triple_inj h
      refine ⟨line', ?_⟩
      rw [← ha, ← hb]
      exact rfl
  by_cases h6 : c = ':'
  · subst h6
    constructor
    · intro e h
      cases h
    · intro ts r l2 h
      obtain ⟨ha, hb⟩ := ok_triple_inj h
      refine ⟨line', ?_⟩
      rw [← ha, ← hb]
      exact rfl
  by_cases h7 : c = '\n'
  · subst h7
    have e1 : scanToken '\n' rest line = .ok ([], rest, line + 1) := rfl
    have e2 : scanToken '\n' rest line' = .ok ([], rest, line' + 1) := rfl
    constructor
    · intro e h
      rw [e1] at h
      cases h
    · intro ts r l2 h
      rw [e1] at h
      obtain ⟨ha, hb⟩ := ok_triple_inj h
      refine ⟨line' + 1, ?_⟩
      rw [e2, ha, hb]
  by_cases h8 : c = ' '
  · subst h8
    constructor
    · intro e h
      cases h
    · intro ts r l2 h
      obtain ⟨ha, hb⟩ := ok_triple_inj h
      refine ⟨line', ?_⟩
      rw [← ha, ← hb]
      exact rfl
  by_cases h9 : c = '\"'
  · subst h9
    rw [scanToken_quote, scanToken_quote]
    cases has : addString rest with
    | error e =>
      constructor
      · intro e' h
        exact h
      · intro ts r l2 h
        cases h
    | ok p =>
      obtain ⟨t, r0⟩ := p
      constructor
      · intro e h
        cases h
      · intro ts r l2 h
        obtain ⟨ha, hb⟩ := ok_triple_inj h
        refine ⟨line', ?_⟩
        rw [← ha, ← hb]
  by_cases h10 : c = '-'
  · subst h10
    rw [scanToken_minus, scanToken_minus]
    cases rest with
    | nil =>
      constructor
      · intro e h
        exact h
      · intro ts r l2 h
        cases h
    | cons d rest2 =>
      by_cases hd : isdigit d = true
      · simp only [hd, if_true]
        cases han : addNumber true d rest2 with
        | error e =>
          constructor
          · intro e' h
            exact h
          · intro ts r l2 h
            cases h
        | ok p =>
          obtain ⟨t, r0⟩ := p
          constructor
          · intro e h
            cases h
          · intro ts r l2 h
            obtain ⟨ha, hb⟩ := ok_triple_inj h
            refine ⟨line', ?_⟩
            rw [← ha, ← hb]
      · simp only [hd, if_false]
        constructor
        · intro e h
          exact h
        · intro ts r l2 h
          cases h
  by_cases h11 : isdigit c = true
  · rw [scanToken_digit c rest line h11, scanToken_digit c rest line' h11]
    cases han : addNumber false c rest with
    | error e =>
      constructor
      · intro e' h
        exact h
      · intro ts r l2 h
        cases h
    | ok p =>
      obtain ⟨t, r0⟩ := p
      constructor
      · intro e h
        cases h
      · intro ts r l2 h
        obtain ⟨ha, hb⟩ := ok_triple_inj h
        refine ⟨line', ?_⟩
        rw [← ha, ← hb]
  by_cases h12 : isalpha c = true
  · rw [scanToken_alpha c rest line h12, scanToken_alpha c rest line' h12]
    cases hak : addKeyword c rest with
    | error e =>
      constructor
      · intro e' h
        exact h
      · intro ts r l2 h
        cases h
    | ok p =>
      obtain ⟨t, r0⟩ := p
      constructor
      · intro e h
        cases h
      · intro ts r l2 h
        obtain ⟨ha, hb⟩ := ok_triple_inj h
        refine ⟨line', ?_⟩
        rw [← ha, ← hb]
  · have hs : scanToken c rest line = .error .UnexpectedTokenScan := by
      simp [scanToken, h1, h2, h3, h4, h5, h6, h7, h8, h9, h10, h11, h12]
    have hs' : scanToken c rest line' = .error .UnexpectedTokenScan := by
      simp [scanToken, h1, h2, h3, h4, h5, h6, h7, h8, h9, h10, h11, h12]
    rw [hs, hs']
    constructor
    · intro e h
      exact h
    · intro ts r l2 h
      cases h

/-- The scanner's output does not depend on the starting line counter (tokens
do not record line numbers). -/
theorem scanLoop_line :
    ∀ (fuel : Nat) (s : List Char) (line line' : Nat),
      scanLoop fuel s line = scanLoop fuel s line' := by
  intro fuel
  induction fuel with
  | zero => intro s l l'; rfl
  | succ fuel ih =>
    intro s l l'
    cases s with
    | nil => rfl
    | cons c rest =>
      cases hse : scanToken c rest l with
      | error e =>
        have hse' := (scanToken_line_shift l').1 e hse
        simp [scanLoop, hse, hse']
      | ok r =>
        obtain ⟨ts, rest', line2⟩ := r
        obtain ⟨line2', hse'⟩ := (scanToken_line_shift l').2 ts rest' line2 hse
        simp only [scanLoop, hse, hse']
        rw [ih rest' line2 line2']

/-- Line-counter irrelevance for the canonical scan. -/
theorem scanT_line (s : List Char) (line line' : Nat) :
    scanT s line = scanT s line' :=
  scanLoop_line (s.length + 1) s line line'

/-- Unfolding step for the canonical scan: one `scanToken` step followed by
the canonical scan of what it leaves. -/
theorem scanT_step {c : Char} {ts0 : List Token} {big rest : List Char}
    {line line' : Nat}
    (hc : scanToken c big line = .ok (ts0, rest, line')) :
    scanT (c :: big) line =
      Except.map (fun ts => ts0 ++ ts) (scanT rest line) := by
  have hlen := scanToken_len hc
  show scanLoop (big.length + 1 + 1) (c :: big) line = _
  simp only [scanLoop, hc]
  rw [scanT_of_fuel (show rest.length < big.length + 1 by omega)]
  rw [scanT_line rest line' line]
  cases h : scanT rest line with
  | error e => simp [Except.map]
  | ok ts => simp [Except.map]

/-- Composition of Except.map. -/
theorem except_map_map {α β γ ε : Type} (f : α → β) (g : β → γ)
    (x : Except ε α) :
    Except.map g (Except.map f x) = Except.map (fun a => g (f a)) x := by
  cases x <;> rfl

/-- Pointwise-equal functions map equally. -/
theorem except_map_congr {α β ε : Type} {f g : α → β} {x : Except ε α}
    (h : ∀ a, f a = g a) : Except.map f x = Except.map g x := by
  cases x <;> simp [Except.map, h]

/-- Characters at which a scanner token run may safely end: the next input
character (if any) continues neither a number nor a keyword.  Holds for all
characters the renderer ever places after a scalar: `,`, newline, space, `\x7d`
and `]`. -/
def ScanBoundary (cs : List Char) : Prop :=
  ∀ c r', cs = c :: r' → isdigit c = false ∧ isalpha c = false ∧ c ≠ '.'

theorem scanBoundary_nil : ScanBoundary [] := by
  intro c r' h
  cases h

theorem scanBoundary_comma {l : List Char} : ScanBoundary (',' :: l) := by
  intro c r' h
  injection h with h1 _
  rw [← h1]
  refine ⟨by decide, by decide, by decide⟩

theorem scanBoundary_newline {l : List Char} : ScanBoundary ('\n' :: l) := by
  intro c r' h
  injection h with h1 _
  rw [← h1]
  refine ⟨by decide, by decide, by decide⟩

theorem scanBoundary_space {l : List Char} : ScanBoundary (' ' :: l) := by
  intro c r' h
  injection h with h1 _
  rw [← h1]
  refine ⟨by decide, by decide, by decide⟩

theorem scanBoundary_rcurly {l : List Char} : ScanBoundary ('\x7d' :: l) := by
  intro c r' h
  injection h with h1 _
  rw [← h1]
  refine ⟨by decide, by decide, by decide⟩

theorem scanBoundary_rsquare {l : List Char} : ScanBoundary (']' :: l) := by
  intro c r' h
  injection h with h1 _
  rw [← h1]
  refine ⟨by decide, by decide, by decide⟩

theorem scanBoundary_indent {k : Nat} {l : List Char}
    (h : ScanBoundary l) : ScanBoundary (indentChars k ++ l) := by
  cases k with
  | zero => simpa [indentChars] using h
  | succ k =>
    intro c r' he
    rw [show indentChars (k + 1) = ' ' :: indentChars k by
      simp [indentChars, List.replicate_succ]] at he
    injection he with h1 _
    rw [← h1]
    refine ⟨by decide, by decide, by decide⟩

/-- Scanning a left curly bracket. -/
theorem scanT_lcurly (rest : List Char) (line : Nat) :
    scanT ('\x7b' :: rest) line =
      Except.map (fun ts => ⟨.LEFT_CURLY, .str ['\x7b']⟩ :: ts)
        (scanT rest line) :=
  scanT_step (rfl :
    scanToken '\x7b' rest line = .ok ([⟨.LEFT_CURLY, .str ['\x7b']⟩], rest, line))

/-- Scanning a right curly bracket. -/
theorem scanT_rcurly (rest : List Char) (line : Nat) :
    scanT ('\x7d' :: rest) line =
      Except.map (fun ts => ⟨.RIGHT_CURLY, .str ['\x7d']⟩ :: ts)
        (scanT rest line) :=
  scanT_step (rfl :
    scanToken '\x7d' rest line = .ok ([⟨.RIGHT_CURLY, .str ['\x7d']⟩], rest, line))

/-- Scanning a left square bracket. -/
theorem scanT_lsquare (rest : List Char) (line : Nat) :
    scanT ('[' :: rest) line =
      Except.map (fun ts => ⟨.LEFT_SQUARE, .str ['[']⟩ :: ts)
        (scanT rest line) :=
  scanT_step (rfl :
    scanToken '[' rest line = .ok ([⟨.LEFT_SQUARE, .str ['[']⟩], rest, line))

/-- Scanning a right square bracket. -/
theorem scanT_rsquare (rest : List Char) (line : Nat) :
    scanT (']' :: rest) line =
      Except.map (fun ts => ⟨.RIGHT_SQUARE, .str [']']⟩ :: ts)
        (scanT rest line) :=
  scanT_step (rfl :
    scanToken ']' rest line = .ok ([⟨.RIGHT_SQUARE, .str [']']⟩], rest, line))

/-- Scanning a comma. -/
theorem scanT_comma (rest : List Char) (line : Nat) :
    scanT (',' :: rest) line =
      Except.map (fun ts => ⟨.COMMA, .str [',']⟩ :: ts) (scanT rest line) :=
  scanT_step (rfl :
    scanToken ',' rest line = .ok ([⟨.COMMA, .str [',']⟩], rest, line))

/-- Scanning a colon. -/
theorem scanT_colon (rest : List Char) (line : Nat) :
    scanT (':' :: rest) line =
      Except.map (fun ts => ⟨.COLON, .str [':']⟩ :: ts) (scanT rest line) :=
  scanT_step (rfl :
    scanToken ':' rest line = .ok ([⟨.COLON, .str [':']⟩], rest, line))

/-- A space produces no token. -/
theorem scanT_space (rest : List Char) (line : Nat) :
    scanT (' ' :: rest) line = scanT rest line := by
  have h := scanT_step (rfl : scanToken ' ' rest line = .ok ([], rest, line))
  rw [h]
  cases hr : scanT rest line <;> simp [Except.map]

/-- A newline produces no token (and its line-count change is invisible in
the output). -/
theorem scanT_newline (rest : List Char) (line : Nat) :
    scanT ('\n' :: rest) line = scanT rest line := by
  have h := scanT_step (rfl : scanToken '\n' rest line = .ok ([], rest, line + 1))
  rw [h]
  cases hr : scanT rest line <;> simp [Except.map]

/-- A run of indentation spaces produces no token. -/
theorem scanT_indent (k : Nat) (rest : List Char) (line : Nat) :
    scanT (indentChars k ++ rest) line = scanT rest line := by
  induction k with
  | zero => simp [indentChars]
  | succ k ih =>
    rw [show indentChars (k + 1) ++ rest = ' ' :: (indentChars k ++ rest) by
      simp [indentChars, List.replicate_succ]]
    rw [scanT_space, ih]

/-- Scanning a quoted string literal whose payload is quote-free. -/
theorem scanT_string (s rest : List Char) (line : Nat) (hs : '\"' ∉ s) :
    scanT ('\"' :: (s ++ '\"' :: rest)) line =
      Except.map (fun ts => ⟨.STRING, .str s⟩ :: ts) (scanT rest line) := by
  have hstep : scanToken '\"' (s ++ '\"' :: rest) line =
      .ok ([⟨.STRING, .str s⟩], rest, line) := by
    rw [scanToken_quote]
    simp [addString, stringChars_append s rest hs]
  exact scanT_step hstep

/-- The character of a decimal digit is an ASCII digit. -/
theorem digitChar_isdigit (d : Nat) (h : d < 10) :
    isdigit (digitChar d) = true := by
  interval_cases d <;> decide

/-- Reading back the value of a decimal digit character. -/
theorem digitChar_val (d : Nat) (h : d < 10) : (digitChar d).toNat - 48 = d := by
  interval_cases d <;> decide

/-- Appending one digit multiplies the accumulated value by ten. -/
theorem digitsToNat_append_one (a : List Char) (c : Char) :
    digitsToNat (a ++ [c]) = 10 * digitsToNat a + (c.toNat - 48) := by
  simp [digitsToNat, List.foldl_append]

/-- All characters printed for a natural number are digits. -/
theorem natToCharsFuel_digits :
    ∀ (fuel n : Nat), n < fuel →
      ∀ c ∈ natToCharsFuel fuel n, isdigit c = true := by
  intro fuel
  induction fuel with
  | zero => intro n h; exact absurd h (Nat.not_lt_zero _)
  | succ fuel ih =>
    intro n h c hc
    by_cases hn : n < 10
    · simp [natToCharsFuel, hn] at hc
      rw [hc]
      exact digitChar_isdigit n hn
    · simp [natToCharsFuel, hn] at hc
      rcases hc with hc | hc
      · exact ih (n / 10) (by omega) c hc
      · rw [hc]
        exact digitChar_isdigit (n % 10) (Nat.mod_lt _ (by omega))

/-- scanning back the printed digits of a natural number recovers it. -/
theorem natToCharsFuel_inv :
    ∀ (fuel n : Nat), n < fuel →
      digitsToNat (natToCharsFuel fuel n) = n := by
  intro fuel
  induction fuel with
  | zero => intro n h; exact absurd h (Nat.not_lt_zero _)
  | succ fuel ih =>
    intro n h
    by_cases hn : n < 10
    · simp [natToCharsFuel, hn, digitsToNat, List.foldl, digitChar_val n hn]
    · rw [natToCharsFuel]
      simp only [if_neg hn]
      rw [digitsToNat_append_one, ih (n / 10) (by omega),
        digitChar_val (n % 10) (Nat.mod_lt _ (by omega))]
      omega

theorem natToChars_digits (n : Nat) : ∀ c ∈ natToChars n, isdigit c = true :=
  natToCharsFuel_digits (n + 1) n (Nat.lt_succ_self n)

theorem natToChars_inv (n : Nat) : digitsToNat (natToChars n) = n :=
  natToCharsFuel_inv (n + 1) n (Nat.lt_succ_self n)

theorem natToChars_ne_nil (n : Nat) : natToChars n ≠ [] := by
  unfold natToChars natToCharsFuel
  by_cases hn : n < 10 <;> simp [hn]

/-- Scanning the decimal print of an in-range `int` at a safe boundary yields
exactly the integer-variant NUMBER token with the same value. -/
theorem scanT_int (i : Int) (rest : List Char) (line : Nat)
    (hlo : -2147483648 ≤ i) (hhi : i ≤ 2147483647)
    (hrest : ScanBoundary rest) :
    scanT (intToChars i ++ rest) line =
      Except.map (fun ts => ⟨.NUMBER, .int i⟩ :: ts) (scanT rest line) := by
  have hb : ∀ c r', rest = c :: r' → isdigit c = false ∧ c ≠ '.' := by
    intro c r' h
    exact ⟨(hrest c r' h).1, (hrest c r' h).2.2⟩
  by_cases hneg : i < 0
  · have hic : intToChars i = '-' :: natToChars (-i).toNat := by
      simp [intToChars, hneg]
    obtain ⟨d, ds, hds⟩ : ∃ d ds, natToChars (-i).toNat = d :: ds := by
      cases hnc : natToChars (-i).toNat with
      | nil => exact absurd hnc (natToChars_ne_nil _)
      | cons d ds => exact ⟨d, ds, rfl⟩
    have hdig : ∀ c ∈ d :: ds, isdigit c = true := by
      rw [← hds]; exact natToChars_digits _
    have hdd : isdigit d = true := hdig d (by simp)
    have hdsd : ∀ c ∈ ds, isdigit c = true := fun c hc => hdig c (by simp [hc])
    have hval : digitsToNat (d :: ds) = (-i).toNat := by
      rw [← hds]; exact natToChars_inv _
    have hle : digitsToNat (d :: ds) ≤ 2147483648 := by
      rw [hval]; omega
    have han := addNumber_int_spec true d ds rest hdsd hb
    rw [if_pos hle] at han
    have hstep : scanToken '-' (natToChars (-i).toNat ++ rest) line =
        .ok ([⟨.NUMBER, .int (-(digitsToNat (d :: ds) : Int))⟩], rest, line) := by
      rw [scanToken_minus, hds]
      show (match d :: (ds ++ rest) with
        | [] => Except.error Err.MinusWithoutDigit
        | d :: rest2 =>
          if isdigit d = true then
            match addNumber true d rest2 with
            | Except.error e => Except.error e
            | Except.ok (t, r) => Except.ok ([t], r, line)
          else Except.error Err.MinusWithoutDigit) = _
      simp only [hdd, if_true, han]
    have heq : -(digitsToNat (d :: ds) : Int) = i := by
      rw [hval]; omega
    rw [hic]
    have := scanT_step (show scanToken '-' (natToChars (-i).toNat ++ rest) line =
      .ok ([⟨.NUMBER, .int i⟩], rest, line) by rw [hstep, heq])
    rw [show ('-' :: natToChars (-i).toNat) ++ rest =
      '-' :: (natToChars (-i).toNat ++ rest) by simp] at *
    rw [this]
    exact except_map_congr (fun a => by simp)
  · have hic : intToChars i = natToChars i.toNat := by
      simp [intToChars, hneg]
    obtain ⟨d, ds, hds⟩ : ∃ d ds, natToChars i.toNat = d :: ds := by
      cases hnc : natToChars i.toNat with
      | nil => exact absurd hnc (natToChars_ne_nil _)
      | cons d ds => exact ⟨d, ds, rfl⟩
    have hdig : ∀ c ∈ d :: ds, isdigit c = true := by
      rw [← hds]; exact natToChars_digits _
    have hdd : isdigit d = true := hdig d (by simp)
    have hdsd : ∀ c ∈ ds, isdigit c = true := fun c hc => hdig c (by simp [hc])
    have hval : digitsToNat (d :: ds) = i.toNat := by
      rw [← hds]; exact natToChars_inv _
    have hle : digitsToNat (d :: ds) ≤ 2147483647 := by
      rw [hval]; omega
    have han := addNumber_int_spec false d ds rest hdsd hb
    rw [if_pos hle] at han
    have heq : ((digitsToNat (d :: ds) : Nat) : Int) = i := by
      rw [hval]; omega
    have hstep : scanToken d (ds ++ rest) line =
        .ok ([⟨.NUMBER, .int i⟩], rest, line) := by
      rw [scanToken_digit d (ds ++ rest) line hdd, han, heq]
      simp
    rw [hic, hds]
    have := scanT_step hstep
    rw [show (d :: ds) ++ rest = d :: (ds ++ rest) by simp]
    rw [this]
    exact except_map_congr (fun a => by simp)

/-- Scanning the keyword `true` at a safe boundary. -/
theorem scanT_true (rest : List Char) (line : Nat) (hrest : ScanBoundary rest) :
    scanT ("true".data ++ rest) line =
      Except.map (fun ts => ⟨.BOOLEAN, .bool true⟩ :: ts) (scanT rest line) := by
  have hrun : alphaRun ("rue".data ++ rest) = ("rue".data, rest) := by
    refine alphaRun_append "rue".data rest (by decide) ?_
    intro c r' h
    exact (hrest c r' h).2.1
  have hak : addKeyword 't' ("rue".data ++ rest) = .ok (⟨.BOOLEAN, .bool true⟩, rest) := by
    simp only [addKeyword, hrun]
    norm_num
  have hstep : scanToken 't' ("rue".data ++ rest) line =
      .ok ([⟨.BOOLEAN, .bool true⟩], rest, line) := by
    rw [scanToken_alpha 't' _ line (by decide), hak]
  calc scanT ("true".data ++ rest) line
      = scanT ('t' :: ("rue".data ++ rest)) line := rfl
    _ = Except.map (fun ts => [⟨.BOOLEAN, .bool true⟩] ++ ts) (scanT rest line) :=
        scanT_step hstep
    _ = Except.map (fun ts => ⟨.BOOLEAN, .bool true⟩ :: ts) (scanT rest line) :=
        except_map_congr (fun a => by simp)

/-- Scanning the keyword `false` at a safe boundary. -/
theorem scanT_false (rest : List Char) (line : Nat) (hrest : ScanBoundary rest) :
    scanT ("false".data ++ rest) line =
      Except.map (fun ts => ⟨.BOOLEAN, .bool false⟩ :: ts) (scanT rest line) := by
  have hrun : alphaRun ("alse".data ++ rest) = ("alse".data, rest) := by
    refine alphaRun_append "alse".data rest (by decide) ?_
    intro c r' h
    exact (hrest c r' h).2.1
  have hak : addKeyword 'f' ("alse".data ++ rest) =
      .ok (⟨.BOOLEAN, .bool false⟩, rest) := by
    simp only [addKeyword, hrun]
    norm_num
  have hstep : scanToken 'f' ("alse".data ++ rest) line =
      .ok ([⟨.BOOLEAN, .bool false⟩], rest, line) := by
    rw [scanToken_alpha 'f' _ line (by decide), hak]
  calc scanT ("false".data ++ rest) line
      = scanT ('f' :: ("alse".data ++ rest)) line := rfl
    _ = Except.map (fun ts => [⟨.BOOLEAN, .bool false⟩] ++ ts) (scanT rest line) :=
        scanT_step hstep
    _ = Except.map (fun ts => ⟨.BOOLEAN, .bool false⟩ :: ts) (scanT rest line) :=
        except_map_congr (fun a => by simp)

/-- Scanning the keyword `null` at a safe boundary. -/
theorem scanT_null (rest : List Char) (line : Nat) (hrest : ScanBoundary rest) :
    scanT ("null".data ++ rest) line =
      Except.map (fun ts => ⟨.NULL_VALUE, .mono⟩ :: ts) (scanT rest line) := by
  have hrun : alphaRun ("ull".data ++ rest) = ("ull".data, rest) := by
    refine alphaRun_append "ull".data rest (by decide) ?_
    intro c r' h
    exact (hrest c r' h).2.1
  have hak : addKeyword 'n' ("ull".data ++ rest) =
      .ok (⟨.NULL_VALUE, .mono⟩, rest) := by
    simp only [addKeyword, hrun]
    rfl
  have hstep : scanToken 'n' ("ull".data ++ rest) line =
      .ok ([⟨.NULL_VALUE, .mono⟩], rest, line) := by
    rw [scanToken_alpha 'n' _ line (by decide), hak]
  calc scanT ("null".data ++ rest) line
      = scanT ('n' :: ("ull".data ++ rest)) line := rfl
    _ = Except.map (fun ts => [⟨.NULL_VALUE, .mono⟩] ++ ts) (scanT rest line) :=
        scanT_step hstep
    _ = Except.map (fun ts => ⟨.NULL_VALUE, .mono⟩ :: ts) (scanT rest line) :=
        except_map_congr (fun a => by simp)

/- Structural size of a value tree, used as the induction measure for the
round-trip proofs (strictly decreasing into object entries and array
elements). -/
mutual

def vsize : JsonValue → Nat
  | .obj entries => 1 + esize entries
  | .arr elems => 1 + lsize elems
  | .str _ => 1
  | .int _ => 1
  | .float _ => 1
  | .bool _ => 1
  | .null => 1

def esize : List (List Char × JsonValue) → Nat
  | [] => 0
  | (_, v) :: rest => 1 + vsize v + esize rest

def lsize : List JsonValue → Nat
  | [] => 0
  | v :: rest => 1 + vsize v + lsize rest

end

/-- The token comma. -/
def commaTok : Token := ⟨.COMMA, .str [',']⟩

/-- Optional comma after an object entry: present unless it is the last. -/
def commaOptO : List (List Char × JsonValue) → List Token
  | [] => []
  | _ :: _ => [commaTok]

/-- Optional comma after an array element: present unless it is the last. -/
def commaOptA : List JsonValue → List Token
  | [] => []
  | _ :: _ => [commaTok]

/- The token sequence the scanner produces (excluding the final EOF) for the
rendered text of a value tree; defined structurally over the tree, proved
correct against `scanT` below. -/
mutual

def tokensOf : JsonValue → List Token
  | .obj entries =>
    ⟨.LEFT_CURLY, .str ['\x7b']⟩ ::
      (objToks entries ++ [⟨.RIGHT_CURLY, .str ['\x7d']⟩])
  | .arr elems =>
    ⟨.LEFT_SQUARE, .str ['[']⟩ ::
      (arrToks elems ++ [⟨.RIGHT_SQUARE, .str [']']⟩])
  | .str s => [⟨.STRING, .str s⟩]
  | .int i => [⟨.NUMBER, .int i⟩]
  | .float q => [⟨.NUMBER, .float q⟩]
  | .bool b => [⟨.BOOLEAN, .bool b⟩]
  | .null => [⟨.NULL_VALUE, .mono⟩]

def objToks : List (List Char × JsonValue) → List Token
  | [] => []
  | (k, v) :: rest =>
    ⟨.STRING, .str k⟩ :: ⟨.COLON, .str [':']⟩ ::
      (tokensOf v ++ (commaOptO rest ++ objToks rest))

def arrToks : List JsonValue → List Token
  | [] => []
  | v :: rest => tokensOf v ++ (commaOptA rest ++ arrToks rest)

end

/-- First token of the rendered token sequence of a value. -/
def headTok : JsonValue → Token
  | .obj _ => ⟨.LEFT_CURLY, .str ['\x7b']⟩
  | .arr _ => ⟨.LEFT_SQUARE, .str ['[']⟩
  | .str s => ⟨.STRING, .str s⟩
  | .int i => ⟨.NUMBER, .int i⟩
  | .float q => ⟨.NUMBER, .float q⟩
  | .bool b => ⟨.BOOLEAN, .bool b⟩
  | .null => ⟨.NULL_VALUE, .mono⟩

/-- `tokensOf` is nonempty and starts with `headTok`. -/
theorem tokensOf_head (v : JsonValue) : ∃ l, tokensOf v = headTok v :: l := by
  cases v with
  | obj entries =>
    exact ⟨objToks entries ++ [⟨.RIGHT_CURLY, .str ['\x7d']⟩],
      by simp [tokensOf, headTok]⟩
  | arr elems =>
    exact ⟨arrToks elems ++ [⟨.RIGHT_SQUARE, .str [']']⟩],
      by simp [tokensOf, headTok]⟩
  | str s => exact ⟨[], by simp [tokensOf, headTok]⟩
  | int i => exact ⟨[], by simp [tokensOf, headTok]⟩
  | float q => exact ⟨[], by simp [tokensOf, headTok]⟩
  | bool b => exact ⟨[], by simp [tokensOf, headTok]⟩
  | null => exact ⟨[], by simp [tokensOf, headTok]⟩

theorem tokensOf_length_pos (v : JsonValue) : 1 ≤ (tokensOf v).length := by
  obtain ⟨l, hl⟩ := tokensOf_head v
  rw [hl]
  simp

/-- The key token the object loop sees at the start of an entry list: the
entry's key for a nonempty list, the closing brace for the empty one. -/
def objKeyTok : List (List Char × JsonValue) → Token
  | [] => ⟨.RIGHT_CURLY, .str ['\x7d']⟩
  | (k, _) :: _ => ⟨.STRING, .str k⟩

theorem objToks_head_cons (entries : List (List Char × JsonValue))
    (l : List Token) :
    ∃ l', objToks entries ++ ⟨.RIGHT_CURLY, .str ['\x7d']⟩ :: l =
      objKeyTok entries :: l' := by
  cases entries with
  | nil => exact ⟨l, by simp [objToks, objKeyTok]⟩
  | cons e rest =>
    obtain ⟨k, v⟩ := e
    exact ⟨⟨.COLON, .str [':']⟩ ::
      (tokensOf v ++ (commaOptO rest ++
        (objToks rest ++ ⟨.RIGHT_CURLY, .str ['\x7d']⟩ :: l))),
      by simp [objToks, objKeyTok]⟩

/-- The token the array loop sees at the start of an element list: the first
token of the first element, the closing bracket for the empty list. -/
def arrHeadTok : List JsonValue → Token
  | [] => ⟨.RIGHT_SQUARE, .str [']']⟩
  | v :: _ => headTok v

theorem arrToks_head_cons (elems : List JsonValue) (l : List Token) :
    ∃ l', arrToks elems ++ ⟨.RIGHT_SQUARE, .str [']']⟩ :: l =
      arrHeadTok elems :: l' := by
  cases elems with
  | nil => exact ⟨l, by simp [arrToks, arrHeadTok]⟩
  | cons v rest =>
    obtain ⟨lv, hlv⟩ := tokensOf_head v
    refine ⟨lv ++ (commaOptA rest ++ arrToks rest) ++
      ⟨.RIGHT_SQUARE, .str [']']⟩ :: l, ?_⟩
    simp [arrToks, arrHeadTok, hlv]

/-- headTok never carries the token types that terminate or punctuate. -/
theorem headTok_not_special (v : JsonValue) :
    (headTok v).token_type ≠ .RIGHT_SQUARE ∧
    (headTok v).token_type ≠ .RIGHT_CURLY ∧
    (headTok v).token_type ≠ .EOF_TOKEN := by
  cases v <;> simp [headTok]

/-- Element access in the middle section of a three-part token list. -/
theorem get_mid (pre mid post : List Token) (k : Nat) (t : Token)
    (hk : mid.get? k = some t) :
    (pre ++ mid ++ post).get? (pre.length + k) = some t := by
  have hlt : k < mid.length := by
    by_contra hc
    push_neg at hc
    rw [List.get?_eq_none.mpr hc] at hk
    cases hk
  rw [List.append_assoc, List.get?_eq_getElem?,
    List.getElem?_append_right (show pre.length ≤ pre.length + k by omega)]
  simp only [Nat.add_sub_cancel_left]
  rw [List.getElem?_append_left hlt, ← List.get?_eq_getElem?]
  exact hk

/-- The head of the middle section, at index `pre.length`. -/
theorem get_at (pre : List Token) (t : Token) (l post : List Token) :
    (pre ++ (t :: l) ++ post).get? pre.length = some t := by
  have := get_mid pre (t :: l) post 0 t rfl
  simpa using this

/-- Scanning rendered text: for every well-formed float-free value tree, the
scanner turns the rendered characters (followed by any boundary-safe
continuation) into exactly `tokensOf v` followed by the scan of the
continuation; simultaneously for the object-entry and array-element loops of
the renderer.  Induction on the structural size. -/
theorem render_scan_master :
    ∀ N : Nat,
      (∀ v, vsize v ≤ N → GoodV v → FloatFree v → ∀ ind rest line,
        ScanBoundary rest →
        scanT (print_json v ind ++ rest) line =
          Except.map (fun ts => tokensOf v ++ ts) (scanT rest line)) ∧
      (∀ entries, esize entries ≤ N →
        (∀ p ∈ entries, '\"' ∉ p.1) →
        (∀ p ∈ entries, GoodV p.2) →
        (∀ p ∈ entries, FloatFree p.2) →
        ∀ ind rest line, ScanBoundary rest →
        scanT (objEntriesChars entries ind ++ rest) line =
          Except.map (fun ts => objToks entries ++ ts) (scanT rest line)) ∧
      (∀ elems, lsize elems ≤ N →
        (∀ x ∈ elems, GoodV x) →
        (∀ x ∈ elems, FloatFree x) →
        ∀ ind rest line, ScanBoundary rest →
        scanT (arrElemsChars elems ind ++ rest) line =
          Except.map (fun ts => arrToks elems ++ ts) (scanT rest line)) := by
  intro N
  induction N using Nat.strong_induction_on with
  | _ N ih =>
  refine ⟨?_, ?_, ?_⟩
  · -- values
    intro v hv hg hf ind rest line hbnd
    cases v with
    | obj entries =>
      have hsz : 1 + esize entries ≤ N := by simpa [vsize] using hv
      cases hg with
      | obj _ hp hq hgs =>
      cases hf with
      | obj _ hfs =>
      have h2 := (ih (esize entries) (by omega)).2.1 entries (Nat.le_refl _)
        hq hgs hfs
      simp only [print_json, print_json_object, List.append_assoc,
        List.cons_append, List.nil_append]
      rw [scanT_indent, scanT_lcurly, scanT_newline,
        h2 ind (indentChars ind ++ ('\x7d' :: rest)) line
          (scanBoundary_indent scanBoundary_rcurly),
        scanT_indent, scanT_rcurly]
      simp only [except_map_map]
      apply except_map_congr
      intro a
      simp [tokensOf]
    | arr elems =>
      have hsz : 1 + lsize elems ≤ N := by simpa [vsize] using hv
      cases hg with
      | arr _ hgs =>
      cases hf with
      | arr _ hfs =>
      have h3 := (ih (lsize elems) (by omega)).2.2 elems (Nat.le_refl _)
        hgs hfs
      simp only [print_json, print_json_array, List.append_assoc,
        List.cons_append, List.nil_append]
      rw [scanT_indent, scanT_lsquare, scanT_newline,
        h3 ind (indentChars ind ++ (']' :: rest)) line
          (scanBoundary_indent scanBoundary_rsquare),
        scanT_indent, scanT_rsquare]
      simp only [except_map_map]
      apply except_map_congr
      intro a
      simp [tokensOf]
    | str s =>
      cases hg with
      | str _ hs =>
      simp only [print_json, List.append_assoc, List.cons_append,
        List.nil_append]
      rw [scanT_string s rest line hs]
      apply except_map_congr
      intro a
      simp [tokensOf]
    | int i =>
      cases hg with
      | int _ hlo hhi =>
      simp only [print_json]
      rw [scanT_int i rest line hlo hhi hbnd]
      apply except_map_congr
      intro a
      simp [tokensOf]
    | float q => cases hf
    | bool b =>
      cases b
      · simp only [print_json, Bool.false_eq_true, if_false]
        rw [scanT_false rest line hbnd]
        apply except_map_congr
        intro a
        simp [tokensOf]
      · simp only [print_json, if_true]
        rw [scanT_true rest line hbnd]
        apply except_map_congr
        intro a
        simp [tokensOf]
    | null =>
      simp only [print_json]
      rw [scanT_null rest line hbnd]
      apply except_map_congr
      intro a
      simp [tokensOf]
  · -- object entries
    intro entries hsz hq hgs hfs ind rest line hbnd
    cases entries with
    | nil =>
      simp only [objEntriesChars, List.nil_append]
      cases h : scanT rest line <;> simp [Except.map, objToks, h]
    | cons e rest' =>
      obtain ⟨k, v⟩ := e
      have hk : '\"' ∉ k := hq (k, v) (by simp)
      have hgv : GoodV v := hgs (k, v) (by simp)
      have hfv : FloatFree v := hfs (k, v) (by simp)
      have hsz' : 1 + vsize v + esize rest' ≤ N := by
        simpa [esize] using hsz
      have h1 := (ih (vsize v) (by omega)).1 v (Nat.le_refl _) hgv hfv
      cases rest' with
      | nil =>
        simp only [objEntriesChars, List.append_assoc, List.cons_append,
          List.nil_append]
        rw [scanT_indent, scanT_string k _ line hk, scanT_colon, scanT_space,
          h1 (ind + 2) ('\n' :: rest) line scanBoundary_newline,
          scanT_newline]
        simp only [except_map_map]
        apply except_map_congr
        intro a
        simp [objToks, commaOptO]
      | cons e' rest'' =>
        have h2 := (ih (esize (e' :: rest'')) (by
            have : 1 ≤ vsize v := by cases v <;> simp [vsize]
            omega)).2.1
          (e' :: rest'') (Nat.le_refl _)
          (fun p hp => hq p (by simp [hp]))
          (fun p hp => hgs p (by simp [hp]))
          (fun p hp => hfs p (by simp [hp]))
        simp only [objEntriesChars, List.append_assoc, List.cons_append,
          List.nil_append]
        rw [scanT_indent, scanT_string k _ line hk, scanT_colon, scanT_space,
          h1 (ind + 2) (',' :: ('\n' :: (objEntriesChars (e' :: rest'') ind ++
            rest))) line scanBoundary_comma,
          scanT_comma, scanT_newline,
          h2 ind rest line hbnd]
        simp only [except_map_map]
        apply except_map_congr
        intro a
        simp [objToks, commaOptO, commaTok]
  · -- array elements
    intro elems hsz hgs hfs ind rest line hbnd
    cases elems with
    | nil =>
      simp only [arrElemsChars, List.nil_append]
      cases h : scanT rest line <;> simp [Except.map, arrToks, h]
    | cons v rest' =>
      have hgv : GoodV v := hgs v (by simp)
      have hfv : FloatFree v := hfs v (by simp)
      have hsz' : 1 + vsize v + lsize rest' ≤ N := by
        simpa [lsize] using hsz
      have h1 := (ih (vsize v) (by omega)).1 v (Nat.le_refl _) hgv hfv
      cases rest' with
      | nil =>
        simp only [arrElemsChars, List.append_assoc, List.cons_append,
          List.nil_append]
        rw [h1 (ind + 2) ('\n' :: rest) line scanBoundary_newline,
          scanT_newline]
        apply except_map_congr
        intro a
        simp [arrToks, commaOptA]
      | cons v' rest'' =>
        have h3 := (ih (lsize (v' :: rest'')) (by
            have : 1 ≤ vsize v := by cases v <;> simp [vsize]
            omega)).2.2
          (v' :: rest'') (Nat.le_refl _)
          (fun x hx => hgs x (by simp [hx]))
          (fun x hx => hfs x (by simp [hx]))
        simp only [arrElemsChars, List.append_assoc, List.cons_append,
          List.nil_append]
        rw [h1 (ind + 2) (',' :: ('\n' :: (arrElemsChars (v' :: rest'') ind ++
            rest))) line scanBoundary_comma,
          scanT_comma, scanT_newline,
          h3 ind rest line hbnd]
        simp only [except_map_map]
        apply except_map_congr
        intro a
        simp [arrToks, commaOptA, commaTok]

/-- Head of the middle section of a two-part split. -/
theorem get_at2 (pre : List Token) (t : Token) (l : List Token) :
    (pre ++ t :: l).get? pre.length = some t := by
  have := get_at pre t l []
  simpa using this

/-- Reading the token at a cursor position named by a list split. -/
theorem get_cursor {full : List Token} (pre mid : List Token) (t : Token)
    (n : Nat) (hfull : full = pre ++ t :: mid) (hn : n = pre.length) :
    full[n]? = some t := by
  subst hn
  rw [hfull]
  have h := get_at2 pre t mid
  rwa [List.get?_eq_getElem?] at h

theorem vsize_pos (v : JsonValue) : 1 ≤ vsize v := by
  cases v <;> simp [vsize]

theorem esize_cons (p : List Char × JsonValue)
    (r : List (List Char × JsonValue)) :
    esize (p :: r) = 1 + vsize p.2 + esize r := by
  obtain ⟨k, v⟩ := p
  simp [esize]

theorem lsize_cons (v : JsonValue) (r : List JsonValue) :
    lsize (v :: r) = 1 + vsize v + lsize r := by
  simp [lsize]

theorem objToks_cons_length (k : List Char) (v : JsonValue)
    (rest : List (List Char × JsonValue)) :
    (objToks ((k, v) :: rest)).length =
      2 + (tokensOf v).length + (commaOptO rest).length +
        (objToks rest).length := by
  simp only [objToks, List.length_cons, List.length_append]
  omega

theorem arrToks_cons_length (v : JsonValue) (rest : List JsonValue) :
    (arrToks (v :: rest)).length =
      (tokensOf v).length + (commaOptA rest).length +
        (arrToks rest).length := by
  simp only [arrToks, List.length_append]
  omega

theorem tokensOf_obj_length (entries : List (List Char × JsonValue)) :
    (tokensOf (.obj entries)).length = (objToks entries).length + 2 := by
  simp [tokensOf]

theorem tokensOf_arr_length (elems : List JsonValue) :
    (tokensOf (.arr elems)).length = (arrToks elems).length + 2 := by
  simp [tokensOf]

/-- Parsing the rendered token sequence: for every well-formed float-free
value tree, the parser consumes exactly `tokensOf v` (embedded in any token
context) and rebuilds `v`; simultaneously for the object and array loops,
which rebuild `acc ++ entries` / `acc ++ elems`.  Induction on the structural
size. -/
theorem tokens_parse_master :
    ∀ N : Nat,
      (∀ v, vsize v ≤ N → GoodV v → FloatFree v →
        ∀ (pre post full : List Token) (fuel : Nat),
          full = pre ++ tokensOf v ++ post →
          3 * (tokensOf v).length ≤ fuel →
          parseF fuel (.fromToken (headTok v)) ⟨full, pre.length + 1⟩ =
            .ok (v, ⟨full, pre.length + (tokensOf v).length⟩)) ∧
      (∀ entries, esize entries ≤ N →
        List.Pairwise (fun a b => lexLt a.1 b.1 = true) entries →
        (∀ p ∈ entries, GoodV p.2) →
        (∀ p ∈ entries, FloatFree p.2) →
        ∀ (acc : List (List Char × JsonValue)) (pre post full : List Token)
          (fuel : Nat),
          full = pre ++ objToks entries ++
            (⟨.RIGHT_CURLY, .str ['\x7d']⟩ :: post) →
          3 * (objToks entries).length + 2 ≤ fuel →
          (∀ p ∈ acc, ∀ q ∈ entries, lexLt p.1 q.1 = true) →
          parseF fuel (.objLoop (objKeyTok entries) acc)
              ⟨full, pre.length + 1⟩ =
            .ok (.obj (acc ++ entries),
              ⟨full, pre.length + (objToks entries).length + 1⟩)) ∧
      (∀ elems, lsize elems ≤ N →
        (∀ x ∈ elems, GoodV x) →
        (∀ x ∈ elems, FloatFree x) →
        ∀ (acc : List JsonValue) (pre post full : List Token) (fuel : Nat),
          full = pre ++ arrToks elems ++
            (⟨.RIGHT_SQUARE, .str [']']⟩ :: post) →
          3 * (arrToks elems).length + 2 ≤ fuel →
          parseF fuel (.arrLoop (arrHeadTok elems) acc)
              ⟨full, pre.length + 1⟩ =
            .ok (.arr (acc ++ elems),
              ⟨full, pre.length + (arrToks elems).length + 1⟩)) := by
  intro N
  induction N using Nat.strong_induction_on with
  | _ N ih =>
  refine ⟨?_, ?_, ?_⟩
  · -- values
    intro v hv hg hf pre post full fuel hfull hfuel
    cases v with
    | str s =>
      simp only [tokensOf, List.length_cons, List.length_nil] at hfuel ⊢
      cases fuel with
      | zero => omega
      | succ fuel => rfl
    | int i =>
      simp only [tokensOf, List.length_cons, List.length_nil] at hfuel ⊢
      cases fuel with
      | zero => omega
      | succ fuel => rfl
    | float q => cases hf
    | bool b =>
      simp only [tokensOf, List.length_cons, List.length_nil] at hfuel ⊢
      cases fuel with
      | zero => omega
      | succ fuel => rfl
    | null =>
      simp only [tokensOf, List.length_cons, List.length_nil] at hfuel ⊢
      cases fuel with
      | zero => omega
      | succ fuel => rfl
    | obj entries =>
      cases hg with
      | obj _ hp hq hgs =>
      cases hf with
      | obj _ hfs =>
      have hsz : 1 + esize entries ≤ N := by simpa [vsize] using hv
      rw [tokensOf_obj_length] at hfuel
      cases fuel with
      | zero => omega
      | succ fuel =>
      cases fuel with
      | zero => omega
      | succ fuel =>
      obtain ⟨ltail, hsplit⟩ := objToks_head_cons entries post
      have hget : full[pre.length + 1]? = some (objKeyTok entries) :=
        get_cursor (pre ++ [⟨.LEFT_CURLY, .str ['\x7b']⟩]) ltail
          (objKeyTok entries) (pre.length + 1)
          (by rw [hfull, show pre ++ tokensOf (.obj entries) ++ post =
              (pre ++ [⟨.LEFT_CURLY, .str ['\x7b']⟩]) ++
              (objToks entries ++ (⟨.RIGHT_CURLY, .str ['\x7d']⟩ :: post)) by
                simp [tokensOf], hsplit])
          (by simp)
      have hstep1 : parseF (fuel + 1 + 1)
          (.fromToken (headTok (.obj entries))) ⟨full, pre.length + 1⟩ =
          parseF (fuel + 1) .objCall ⟨full, pre.length + 1⟩ := rfl
      have hstep2 : parseF (fuel + 1) .objCall ⟨full, pre.length + 1⟩ =
          parseF fuel (.objLoop (objKeyTok entries) [])
            ⟨full, pre.length + 1 + 1⟩ := by
        simp [parseF, pAdvance, hget]
      have h2 := (ih (esize entries) (by omega)).2.1 entries (Nat.le_refl _)
        hp hgs hfs []
        (pre ++ [⟨.LEFT_CURLY, .str ['\x7b']⟩]) post full fuel
        (by rw [hfull]; simp [tokensOf])
        (by omega)
        (fun p hp2 q hq => absurd hp2 (List.not_mem_nil p))
      have h2' : parseF fuel (.objLoop (objKeyTok entries) [])
          ⟨full, pre.length + 1 + 1⟩ =
          .ok (.obj ([] ++ entries),
            ⟨full, pre.length + 1 + (objToks entries).length + 1⟩) := by
        rw [show pre.length + 1 + 1 =
          (pre ++ ([⟨.LEFT_CURLY, .str ['\x7b']⟩] : List Token)).length + 1 by simp,
          show pre.length + 1 + (objToks entries).length + 1 =
          (pre ++ ([⟨.LEFT_CURLY, .str ['\x7b']⟩] : List Token)).length +
            (objToks entries).length + 1 by simp]
        exact h2
      rw [hstep1, hstep2, h2', List.nil_append,
        show pre.length + 1 + (objToks entries).length + 1 =
          pre.length + (tokensOf (.obj entries)).length by
            rw [tokensOf_obj_length]; omega]
    | arr elems =>
      cases hg with
      | arr _ hgs =>
      cases hf with
      | arr _ hfs =>
      have hsz : 1 + lsize elems ≤ N := by simpa [vsize] using hv
      rw [tokensOf_arr_length] at hfuel
      cases fuel with
      | zero => omega
      | succ fuel =>
      cases fuel with
      | zero => omega
      | succ fuel =>
      obtain ⟨ltail, hsplit⟩ := arrToks_head_cons elems post
      have hget : full[pre.length + 1]? = some (arrHeadTok elems) :=
        get_cursor (pre ++ [⟨.LEFT_SQUARE, .str ['[']⟩]) ltail
          (arrHeadTok elems) (pre.length + 1)
          (by rw [hfull, show pre ++ tokensOf (.arr elems) ++ post =
              (pre ++ [⟨.LEFT_SQUARE, .str ['[']⟩]) ++
              (arrToks elems ++ (⟨.RIGHT_SQUARE, .str [']']⟩ :: post)) by
                simp [tokensOf], hsplit])
          (by simp)
      have hstep1 : parseF (fuel + 1 + 1)
          (.fromToken (headTok (.arr elems))) ⟨full, pre.length + 1⟩ =
          parseF (fuel + 1) .arrCall ⟨full, pre.length + 1⟩ := rfl
      have hstep2 : parseF (fuel + 1) .arrCall ⟨full, pre.length + 1⟩ =
          parseF fuel (.arrLoop (arrHeadTok elems) [])
            ⟨full, pre.length + 1 + 1⟩ := by
        simp [parseF, pAdvance, hget]
      have h3 := (ih (lsize elems) (by omega)).2.2 elems (Nat.le_refl _)
        hgs hfs []
        (pre ++ [⟨.LEFT_SQUARE, .str ['[']⟩]) post full fuel
        (by rw [hfull]; simp [tokensOf])
        (by omega)
      have h3' : parseF fuel (.arrLoop (arrHeadTok elems) [])
          ⟨full, pre.length + 1 + 1⟩ =
          .ok (.arr ([] ++ elems),
            ⟨full, pre.length + 1 + (arrToks elems).length + 1⟩) := by
        rw [show pre.length + 1 + 1 =
          (pre ++ ([⟨.LEFT_SQUARE, .str ['[']⟩] : List Token)).length + 1 by simp,
          show pre.length + 1 + (arrToks elems).length + 1 =
          (pre ++ ([⟨.LEFT_SQUARE, .str ['[']⟩] : List Token)).length +
            (arrToks elems).length + 1 by simp]
        exact h3
      rw [hstep1, hstep2, h3', List.nil_append,
        show pre.length + 1 + (arrToks elems).length + 1 =
          pre.length + (tokensOf (.arr elems)).length by
            rw [tokensOf_arr_length]; omega]
  · -- object entry loop
    intro entries hsz hp hgs hfs acc pre post full fuel hfull hfuel hacc
    cases entries with
    | nil =>
      cases fuel with
      | zero => omega
      | succ fuel =>
        have hstep : parseF (fuel + 1) (.objLoop (objKeyTok []) acc)
            ⟨full, pre.length + 1⟩ =
            .ok (.obj acc, ⟨full, pre.length + 1⟩) := by
          simp [parseF, objKeyTok]
        rw [hstep]
        simp [objToks]
    | cons e rest' =>
      obtain ⟨k, v⟩ := e
      rcases List.pairwise_cons.mp hp with ⟨hkrest, hp'⟩
      have hgv : GoodV v := hgs (k, v) (by simp)
      have hfv : FloatFree v := hfs (k, v) (by simp)
      have hsz' : 1 + vsize v + esize rest' ≤ N := by
        rw [esize_cons] at hsz
        simpa using hsz
      have hvs : 1 ≤ vsize v := vsize_pos v
      have hLv : 1 ≤ (tokensOf v).length := tokensOf_length_pos v
      rw [objToks_cons_length] at hfuel
      obtain ⟨ltv, hTSv⟩ := tokensOf_head v
      have hins : mapInsert k v acc = acc ++ [(k, v)] :=
        mapInsert_append (fun p hp2 => hacc p hp2 (k, v) (by simp))
      cases fuel with
      | zero => omega
      | succ fuel =>
      have hget1 : full[pre.length + 1]? =
          some ⟨.COLON, .str [':']⟩ :=
        get_cursor (pre ++ [⟨.STRING, .str k⟩])
          (tokensOf v ++ (commaOptO rest' ++ (objToks rest' ++
            (⟨.RIGHT_CURLY, .str ['\x7d']⟩ :: post))))
          ⟨.COLON, .str [':']⟩ (pre.length + 1)
          (by rw [hfull]; simp [objToks])
          (by simp)
      have hget2 : full[pre.length + 1 + 1]? = some (headTok v) :=
        get_cursor (pre ++ [⟨.STRING, .str k⟩, ⟨.COLON, .str [':']⟩])
          (ltv ++ (commaOptO rest' ++ (objToks rest' ++
            (⟨.RIGHT_CURLY, .str ['\x7d']⟩ :: post))))
          (headTok v) (pre.length + 1 + 1)
          (by rw [hfull]; simp [objToks, hTSv])
          (by simp only [List.length_append, List.length_cons,
            List.length_nil]; try omega)
      have hres0 := (ih (vsize v) (by omega)).1 v (Nat.le_refl _) hgv hfv
        (pre ++ [⟨.STRING, .str k⟩, ⟨.COLON, .str [':']⟩])
        (commaOptO rest' ++ (objToks rest' ++
          (⟨.RIGHT_CURLY, .str ['\x7d']⟩ :: post)))
        full fuel
        (by rw [hfull]; simp [objToks])
        (by omega)
      have hres : parseF fuel (.fromToken (headTok v))
          ⟨full, pre.length + 1 + 1 + 1⟩ =
          .ok (v, ⟨full, pre.length + 1 + 1 + (tokensOf v).length⟩) := by
        rw [show pre.length + 1 + 1 + 1 =
          (pre ++ ([⟨.STRING, .str k⟩, ⟨.COLON, .str [':']⟩] : List Token)).length + 1 by
            simp only [List.length_append, List.length_cons,
              List.length_nil]; try omega,
          show pre.length + 1 + 1 + (tokensOf v).length =
          (pre ++ ([⟨.STRING, .str k⟩, ⟨.COLON, .str [':']⟩] : List Token)).length +
            (tokensOf v).length by
            simp only [List.length_append, List.length_cons,
              List.length_nil]; try omega]
        exact hres0
      cases rest' with
      | nil =>
        have hco : (commaOptO ([] : List (List Char × JsonValue))).length = 0 :=
          rfl
        rw [hco] at hfuel
        have hget3 : full[pre.length + 1 + 1 + (tokensOf v).length]? =
            some ⟨.RIGHT_CURLY, .str ['\x7d']⟩ :=
          get_cursor (pre ++ ([⟨.STRING, .str k⟩, ⟨.COLON, .str [':']⟩] : List Token) ++
              tokensOf v) post ⟨.RIGHT_CURLY, .str ['\x7d']⟩
            (pre.length + 1 + 1 + (tokensOf v).length)
            (by rw [hfull]; simp [objToks, commaOptO])
            (by simp only [List.length_append, List.length_cons,
              List.length_nil]; try omega)
        have hstep : parseF (fuel + 1)
            (.objLoop (objKeyTok [(k, v)]) acc) ⟨full, pre.length + 1⟩ =
            parseF fuel (.objLoop ⟨.RIGHT_CURLY, .str ['\x7d']⟩
              (acc ++ [(k, v)]))
              ⟨full, pre.length + 1 + 1 + (tokensOf v).length + 1⟩ := by
          simp [parseF, objKeyTok, consume, pGetCurr, pAdvance,
            consume_until_comma, hget1, hget2, hres, hget3, hins]
        have hrec0 := (ih 0 (by omega)).2.1 [] (Nat.le_refl _)
          List.Pairwise.nil (by simp) (by simp) (acc ++ [(k, v)])
          (pre ++ ([⟨.STRING, .str k⟩, ⟨.COLON, .str [':']⟩] : List Token) ++ tokensOf v)
          post full fuel
          (by rw [hfull]; simp [objToks, commaOptO])
          (by simp only [objToks, List.length_nil]; try omega)
          (fun p hp2 q hq => absurd hq (List.not_mem_nil q))
        simp only [objKeyTok] at hrec0
        have hrec : parseF fuel (.objLoop ⟨.RIGHT_CURLY, .str ['\x7d']⟩
            (acc ++ [(k, v)]))
            ⟨full, pre.length + 1 + 1 + (tokensOf v).length + 1⟩ =
            .ok (.obj ((acc ++ [(k, v)]) ++ []),
              ⟨full, pre.length + 1 + 1 + (tokensOf v).length + 1⟩) := by
          rw [show pre.length + 1 + 1 + (tokensOf v).length + 1 =
            (pre ++ ([⟨.STRING, .str k⟩, ⟨.COLON, .str [':']⟩] : List Token) ++
              tokensOf v).length + 1 by
              simp only [List.length_append, List.length_cons,
                List.length_nil]; try omega]
          have hl0 : (objToks ([] : List (List Char × JsonValue))).length = 0 := by
            simp [objToks]
          rw [show (pre ++ ([⟨.STRING, .str k⟩, ⟨.COLON, .str [':']⟩] : List Token) ++
              tokensOf v).length + 1 =
            (pre ++ ([⟨.STRING, .str k⟩, ⟨.COLON, .str [':']⟩] : List Token) ++
              tokensOf v).length + (objToks ([] : List (List Char × JsonValue))).length + 1 by
              rw [hl0]] at *
          exact hrec0
        rw [hstep, hrec,
          show (acc ++ [(k, v)]) ++ ([] : List (List Char × JsonValue)) =
            acc ++ [(k, v)] by simp,
          show pre.length + 1 + 1 + (tokensOf v).length + 1 =
            pre.length + (objToks [(k, v)]).length + 1 by
            rw [objToks_cons_length]
            simp only [commaOptO, List.length_nil, objToks]
            omega]
      | cons e2 rest'' =>
        obtain ⟨k2, v2⟩ := e2
        have hco : (commaOptO ((k2, v2) :: rest'')).length = 1 := rfl
        rw [hco] at hfuel
        have hget3 : full[pre.length + 1 + 1 + (tokensOf v).length]? =
            some ⟨.COMMA, .str [',']⟩ :=
          get_cursor (pre ++ ([⟨.STRING, .str k⟩, ⟨.COLON, .str [':']⟩] : List Token) ++
              tokensOf v)
            (objToks ((k2, v2) :: rest'') ++
              (⟨.RIGHT_CURLY, .str ['\x7d']⟩ :: post))
            ⟨.COMMA, .str [',']⟩
            (pre.length + 1 + 1 + (tokensOf v).length)
            (by rw [hfull]; simp [objToks, commaOptO, commaTok])
            (by simp only [List.length_append, List.length_cons,
              List.length_nil]; try omega)
        obtain ⟨l4, hsplit4⟩ := objToks_head_cons ((k2, v2) :: rest'') post
        simp only [objKeyTok] at hsplit4
        have hget4 : full[pre.length + 1 + 1 + (tokensOf v).length + 1]? =
            some ⟨.STRING, .str k2⟩ :=
          get_cursor (pre ++ ([⟨.STRING, .str k⟩, ⟨.COLON, .str [':']⟩] : List Token) ++
              tokensOf v ++ ([⟨.COMMA, .str [',']⟩] : List Token)) l4
            ⟨.STRING, .str k2⟩
            (pre.length + 1 + 1 + (tokensOf v).length + 1)
            (by rw [hfull, show pre ++ objToks ((k, v) :: (k2, v2) :: rest'') ++
                (⟨.RIGHT_CURLY, .str ['\x7d']⟩ :: post) =
                (pre ++ ([⟨.STRING, .str k⟩, ⟨.COLON, .str [':']⟩] : List Token) ++
                  tokensOf v ++ [⟨.COMMA, .str [',']⟩]) ++
                (objToks ((k2, v2) :: rest'') ++
                  (⟨.RIGHT_CURLY, .str ['\x7d']⟩ :: post)) by
                simp [objToks, commaOptO, commaTok], hsplit4])
            (by simp only [List.length_append, List.length_cons,
              List.length_nil]; try omega)
        have hstep : parseF (fuel + 1)
            (.objLoop (objKeyTok ((k, v) :: (k2, v2) :: rest'')) acc)
              ⟨full, pre.length + 1⟩ =
            parseF fuel (.objLoop ⟨.STRING, .str k2⟩ (acc ++ [(k, v)]))
              ⟨full, pre.length + 1 + 1 + (tokensOf v).length + 1 + 1⟩ := by
          simp [parseF, objKeyTok, consume, pGetCurr, pAdvance,
            consume_until_comma, hget1, hget2, hres, hget3, hget4, hins]
        have hrec0 := (ih (esize ((k2, v2) :: rest'')) (by
            rw [esize_cons] at hsz
            simp only at hsz
            omega)).2.1
          ((k2, v2) :: rest'') (Nat.le_refl _) hp'
          (fun p hp2 => hgs p (List.mem_cons_of_mem _ hp2))
          (fun p hp2 => hfs p (List.mem_cons_of_mem _ hp2))
          (acc ++ [(k, v)])
          (pre ++ ([⟨.STRING, .str k⟩, ⟨.COLON, .str [':']⟩] : List Token) ++
            tokensOf v ++ [⟨.COMMA, .str [',']⟩])
          post full fuel
          (by rw [hfull]; simp [objToks, commaOptO, commaTok])
          (by rw [objToks_cons_length] at *; omega)
          (by
            intro p hp2 q hq
            rcases List.mem_append.mp hp2 with h | h
            · exact hacc p h q (List.mem_cons_of_mem _ hq)
            · have hpk : p = (k, v) := by simpa using h
              rw [hpk]
              exact hkrest q hq)
        simp only [objKeyTok] at hrec0
        have hrec : parseF fuel (.objLoop ⟨.STRING, .str k2⟩
            (acc ++ [(k, v)]))
            ⟨full, pre.length + 1 + 1 + (tokensOf v).length + 1 + 1⟩ =
            .ok (.obj ((acc ++ [(k, v)]) ++ (k2, v2) :: rest''),
              ⟨full, pre.length + 1 + 1 + (tokensOf v).length + 1 +
                (objToks ((k2, v2) :: rest'')).length + 1⟩) := by
          rw [show pre.length + 1 + 1 + (tokensOf v).length + 1 + 1 =
            (pre ++ ([⟨.STRING, .str k⟩, ⟨.COLON, .str [':']⟩] : List Token) ++
              tokensOf v ++ ([⟨.COMMA, .str [',']⟩] : List Token)).length + 1 by
              simp only [List.length_append, List.length_cons,
                List.length_nil]; try omega,
            show pre.length + 1 + 1 + (tokensOf v).length + 1 +
              (objToks ((k2, v2) :: rest'')).length + 1 =
            (pre ++ ([⟨.STRING, .str k⟩, ⟨.COLON, .str [':']⟩] : List Token) ++
              tokensOf v ++ ([⟨.COMMA, .str [',']⟩] : List Token)).length +
              (objToks ((k2, v2) :: rest'')).length + 1 by
              simp only [List.length_append, List.length_cons,
                List.length_nil]; try omega]
          exact hrec0
        rw [hstep, hrec,
          show (acc ++ [(k, v)]) ++ (k2, v2) :: rest'' =
            acc ++ (k, v) :: (k2, v2) :: rest'' by simp,
          show pre.length + 1 + 1 + (tokensOf v).length + 1 +
              (objToks ((k2, v2) :: rest'')).length + 1 =
            pre.length + (objToks ((k, v) :: (k2, v2) :: rest'')).length + 1 by
            rw [objToks_cons_length k v ((k2, v2) :: rest''), hco]
            omega]
  · -- array element loop
    intro elems hsz hgs hfs acc pre post full fuel hfull hfuel
    cases elems with
    | nil =>
      cases fuel with
      | zero => omega
      | succ fuel =>
        have hstep : parseF (fuel + 1) (.arrLoop (arrHeadTok []) acc)
            ⟨full, pre.length + 1⟩ =
            .ok (.arr acc, ⟨full, pre.length + 1⟩) := by
          simp [parseF, arrHeadTok]
        rw [hstep]
        simp [arrToks]
    | cons v rest' =>
      have hgv : GoodV v := hgs v (by simp)
      have hfv : FloatFree v := hfs v (by simp)
      have hsz' : 1 + vsize v + lsize rest' ≤ N := by
        rw [lsize_cons] at hsz
        simpa using hsz
      have hvs : 1 ≤ vsize v := vsize_pos v
      have hLv : 1 ≤ (tokensOf v).length := tokensOf_length_pos v
      rw [arrToks_cons_length] at hfuel
      have hns := headTok_not_special v
      cases fuel with
      | zero => omega
      | succ fuel =>
      have hres := (ih (vsize v) (by omega)).1 v (Nat.le_refl _) hgv hfv
        pre
        (commaOptA rest' ++ (arrToks rest' ++
          (⟨.RIGHT_SQUARE, .str [']']⟩ :: post)))
        full fuel
        (by rw [hfull]; simp [arrToks])
        (by omega)
      cases rest' with
      | nil =>
        have hca : (commaOptA ([] : List JsonValue)).length = 0 := rfl
        rw [hca] at hfuel
        have hget2 : full[pre.length + (tokensOf v).length]? =
            some ⟨.RIGHT_SQUARE, .str [']']⟩ :=
          get_cursor (pre ++ tokensOf v) post ⟨.RIGHT_SQUARE, .str [']']⟩
            (pre.length + (tokensOf v).length)
            (by rw [hfull]; simp [arrToks, commaOptA])
            (by simp only [List.length_append]; try omega)
        have hstep : parseF (fuel + 1)
            (.arrLoop (arrHeadTok [v]) acc) ⟨full, pre.length + 1⟩ =
            parseF fuel (.arrLoop ⟨.RIGHT_SQUARE, .str [']']⟩ (acc ++ [v]))
              ⟨full, pre.length + (tokensOf v).length + 1⟩ := by
          simp [parseF, arrHeadTok, hns.1, hns.2.2, consume_until_comma,
            pGetCurr, pAdvance, hres, hget2]
        have hrec0 := (ih 0 (by omega)).2.2 [] (Nat.le_refl _)
          (by simp) (by simp) (acc ++ [v]) (pre ++ tokensOf v)
          post full fuel
          (by rw [hfull]; simp [arrToks, commaOptA])
          (by simp only [arrToks, List.length_nil]; try omega)
        simp only [arrHeadTok] at hrec0
        have hrec : parseF fuel
            (.arrLoop ⟨.RIGHT_SQUARE, .str [']']⟩ (acc ++ [v]))
            ⟨full, pre.length + (tokensOf v).length + 1⟩ =
            .ok (.arr ((acc ++ [v]) ++ []),
              ⟨full, pre.length + (tokensOf v).length + 1⟩) := by
          rw [show pre.length + (tokensOf v).length + 1 =
            (pre ++ tokensOf v).length + 1 by
              simp only [List.length_append]]
          have hl0 : (arrToks ([] : List JsonValue)).length = 0 := by
            simp [arrToks]
          rw [show (pre ++ tokensOf v).length + 1 =
            (pre ++ tokensOf v).length +
              (arrToks ([] : List JsonValue)).length + 1 by rw [hl0]] at *
          exact hrec0
        rw [hstep, hrec,
          show (acc ++ [v]) ++ ([] : List JsonValue) = acc ++ [v] by simp,
          show pre.length + (tokensOf v).length + 1 =
            pre.length + (arrToks [v]).length + 1 by
            rw [arrToks_cons_length]
            simp only [commaOptA, List.length_nil, arrToks]
            omega]
      | cons v2 rest'' =>
        have hca : (commaOptA (v2 :: rest'')).length = 1 := rfl
        rw [hca] at hfuel
        have hget2 : full[pre.length + (tokensOf v).length]? =
            some ⟨.COMMA, .str [',']⟩ :=
          get_cursor (pre ++ tokensOf v)
            (arrToks (v2 :: rest'') ++
              (⟨.RIGHT_SQUARE, .str [']']⟩ :: post))
            ⟨.COMMA, .str [',']⟩
            (pre.length + (tokensOf v).length)
            (by rw [hfull]; simp [arrToks, commaOptA, commaTok])
            (by simp only [List.length_append]; try omega)
        obtain ⟨l4, hsplit4⟩ := arrToks_head_cons (v2 :: rest'') post
        simp only [arrHeadTok] at hsplit4
        have hget3 : full[pre.length + (tokensOf v).length + 1]? =
            some (headTok v2) :=
          get_cursor (pre ++ tokensOf v ++ ([⟨.COMMA, .str [',']⟩] : List Token)) l4
            (headTok v2)
            (pre.length + (tokensOf v).length + 1)
            (by rw [hfull, show pre ++ arrToks (v :: v2 :: rest'') ++
                (⟨.RIGHT_SQUARE, .str [']']⟩ :: post) =
                (pre ++ tokensOf v ++ [⟨.COMMA, .str [',']⟩]) ++
                (arrToks (v2 :: rest'') ++
                  (⟨.RIGHT_SQUARE, .str [']']⟩ :: post)) by
                simp [arrToks, commaOptA, commaTok], hsplit4])
            (by simp only [List.length_append, List.length_cons,
              List.length_nil]; try omega)
        have hstep : parseF (fuel + 1)
            (.arrLoop (arrHeadTok (v :: v2 :: rest'')) acc)
              ⟨full, pre.length + 1⟩ =
            parseF fuel (.arrLoop (headTok v2) (acc ++ [v]))
              ⟨full, pre.length + (tokensOf v).length + 1 + 1⟩ := by
          simp [parseF, arrHeadTok, hns.1, hns.2.2, consume_until_comma,
            pGetCurr, pAdvance, hres, hget2, hget3]
        have hrec0 := (ih (lsize (v2 :: rest'')) (by
            rw [lsize_cons] at hsz
            omega)).2.2
          (v2 :: rest'') (Nat.le_refl _)
          (fun x hx => hgs x (List.mem_cons_of_mem _ hx))
          (fun x hx => hfs x (List.mem_cons_of_mem _ hx))
          (acc ++ [v])
          (pre ++ tokensOf v ++ [⟨.COMMA, .str [',']⟩])
          post full fuel
          (by rw [hfull]; simp [arrToks, commaOptA, commaTok])
          (by rw [arrToks_cons_length] at *; omega)
        simp only [arrHeadTok] at hrec0
        have hrec : parseF fuel (.arrLoop (headTok v2) (acc ++ [v]))
            ⟨full, pre.length + (tokensOf v).length + 1 + 1⟩ =
            .ok (.arr ((acc ++ [v]) ++ v2 :: rest''),
              ⟨full, pre.length + (tokensOf v).length + 1 +
                (arrToks (v2 :: rest'')).length + 1⟩) := by
          rw [show pre.length + (tokensOf v).length + 1 + 1 =
            (pre ++ tokensOf v ++ ([⟨.COMMA, .str [',']⟩] : List Token)).length + 1 by
              simp only [List.length_append, List.length_cons,
                List.length_nil]; try omega,
            show pre.length + (tokensOf v).length + 1 +
              (arrToks (v2 :: rest'')).length + 1 =
            (pre ++ tokensOf v ++ ([⟨.COMMA, .str [',']⟩] : List Token)).length +
              (arrToks (v2 :: rest'')).length + 1 by
              simp only [List.length_append, List.length_cons,
                List.length_nil]; try omega]
          exact hrec0
        rw [hstep, hrec,
          show (acc ++ [v]) ++ v2 :: rest'' = acc ++ v :: v2 :: rest'' by simp,
          show pre.length + (tokensOf v).length + 1 +
              (arrToks (v2 :: rest'')).length + 1 =
            pre.length + (arrToks (v :: v2 :: rest'')).length + 1 by
            rw [arrToks_cons_length v (v2 :: rest''), hca]
            omega]

/-- Scanning the rendered text of a well-formed float-free value yields
exactly its token sequence plus the final EOF token. -/
theorem scan_render (v : JsonValue) (hg : GoodV v) (hf : FloatFree v) :
    scan (render v) = .ok (tokensOf v ++ [⟨.EOF_TOKEN, .mono⟩]) := by
  have h1 := (render_scan_master (vsize v)).1 v (Nat.le_refl _) hg hf 0 [] 1
    scanBoundary_nil
  rw [List.append_nil] at h1
  have h0 : scanT ([] : List Char) 1 = .ok [] := rfl
  rw [h0] at h1
  rw [show Except.map (fun ts => tokensOf v ++ ts)
      (Except.ok ([] : List Token)) = Except.ok (tokensOf v ++ []) from rfl,
    List.append_nil] at h1
  have h4 : scan (render v) =
      (match scanT (render v) 1 with
       | .error e => .error e
       | .ok ts => .ok (ts ++ [⟨.EOF_TOKEN, .mono⟩])) := rfl
  rw [h4]
  have h3 : scanT (render v) 1 = .ok (tokensOf v) := h1
  rw [h3]

/-- Core round trip: rendering a well-formed float-free value and parsing the
result gives the value back. -/
theorem good_round_trip (v : JsonValue) (hg : GoodV v) (hf : FloatFree v) :
    parse (render v) = .ok v := by
  have hscan := scan_render v hg hf
  obtain ⟨l, hl⟩ := tokensOf_head v
  have hadv : pAdvance ⟨tokensOf v ++ ([⟨.EOF_TOKEN, .mono⟩] : List Token), 0⟩ =
      .ok (headTok v, ⟨tokensOf v ++ ([⟨.EOF_TOKEN, .mono⟩] : List Token), 1⟩) := by
    unfold pAdvance
    rw [show (tokensOf v ++ ([⟨.EOF_TOKEN, .mono⟩] : List Token)).get? 0 = some (headTok v) by
      rw [hl]; simp]
  have hres := (tokens_parse_master (vsize v)).1 v (Nat.le_refl _) hg hf
    [] ([⟨.EOF_TOKEN, .mono⟩] : List Token) (tokensOf v ++ ([⟨.EOF_TOKEN, .mono⟩] : List Token))
    (3 * (tokensOf v ++ ([⟨.EOF_TOKEN, .mono⟩] : List Token)).length + 10)
    (by simp)
    (by simp only [List.length_append, List.length_cons, List.length_nil]
        omega)
  have hres' : parseF (3 * (tokensOf v ++ ([⟨.EOF_TOKEN, .mono⟩] : List Token)).length + 10)
      (.fromToken (headTok v)) ⟨tokensOf v ++ ([⟨.EOF_TOKEN, .mono⟩] : List Token), 1⟩ =
      .ok (v, ⟨tokensOf v ++ ([⟨.EOF_TOKEN, .mono⟩] : List Token),
        ([] : List Token).length + (tokensOf v).length⟩) := by
    rw [show (1 : Nat) = ([] : List Token).length + 1 by simp]
    exact hres
  have hparse : Parser.parse (tokensOf v ++ ([⟨.EOF_TOKEN, .mono⟩] : List Token)) = .ok v := by
    calc Parser.parse (tokensOf v ++ ([⟨.EOF_TOKEN, .mono⟩] : List Token))
        = ((match parseF (3 * (tokensOf v ++ ([⟨.EOF_TOKEN, .mono⟩] : List Token)).length + 10)
            (.fromToken (headTok v))
            ⟨tokensOf v ++ ([⟨.EOF_TOKEN, .mono⟩] : List Token), 1⟩ with
          | .error e => .error e
          | .ok (w, _) => .ok w) : Except Err JsonValue) := by
          unfold Parser.parse
          rw [hadv]
      _ = .ok v := by rw [hres']
  show ((match scan (render v) with
    | .error e => .error e
    | .ok tokens => Parser.parse tokens : Except Err JsonValue)) = .ok v
  rw [hscan]
  exact hparse

/-- Claim C5 (corrected): the round trip holds exactly for parse results with
no float-variant leaf — for every value tree `v` returned by a successful
`parse`, if `v` is float-free then parsing the rendered text of `v` yields
`v` again (objects compare as the same sorted entry list).  The float-variant
case fails as witnessed separately by `c5_counterexample`. -/
theorem c5_round_trip_float_free (input : List Char) (v : JsonValue)
    (h : parse input = .ok v) (hf : FloatFree v) :
    parse (render v) = .ok v :=
  good_round_trip v (parse_good h) hf

theorem c5_witness :
    parse "\x7b\"b\":1,\"a\":[true,null]\x7d".data =
      .ok (JsonValue.obj [(['a'], .arr [.bool true, .null]), (['b'], .int 1)]) ∧
    FloatFree (JsonValue.obj
      [(['a'], .arr [.bool true, .null]), (['b'], .int 1)]) ∧
    parse (render (JsonValue.obj
      [(['a'], .arr [.bool true, .null]), (['b'], .int 1)])) =
      .ok (JsonValue.obj
        [(['a'], .arr [.bool true, .null]), (['b'], .int 1)]) := by
  have h1 : parse "\x7b\"b\":1,\"a\":[true,null]\x7d".data =
      .ok (JsonValue.obj
        [(['a'], .arr [.bool true, .null]), (['b'], .int 1)]) := by
    rfl
  have hff : FloatFree (JsonValue.obj
      [(['a'], .arr [.bool true, .null]), (['b'], .int 1)]) := by
    refine FloatFree.obj _ ?_
    intro p hp
    simp only [List.mem_cons, List.not_mem_nil, or_false] at hp
    rcases hp with h2 | h2
    · rw [h2]
      refine FloatFree.arr _ ?_
      intro x hx
      simp only [List.mem_cons, List.not_mem_nil, or_false] at hx
      rcases hx with h3 | h3
      · rw [h3]
        exact FloatFree.bool true
      · rw [h3]
        exact FloatFree.null
    · rw [h2]
      exact FloatFree.int 1
  exact ⟨h1, hff, c5_round_trip_float_free _ _ h1 hff⟩
